import Mathlib

/-!
Verification of the move-selection core of the `random-uci` engine
(`src/bin/random-uci.py`).

The Rules Engine (python-chess `Board`) and the Tablebase Reader
(`chess.syzygy`) are external collaborators; they are modelled abstractly by
the `Game` structure below.  Moves are identified with their UCI strings,
exactly as the engine itself manipulates them.  The mutable global `board`
(current position plus push/pop move stack) and the transposition dictionary
`fen_to_raw_score` are threaded through every function as an explicit
`BState` value.
-/

set_option linter.unusedVariables false

namespace RandomUci

/-- Abstract interface of the external collaborators: python-chess board
queries and the syzygy tablebase probes.  `pieceAt` returns the symbol of the
piece on a square index (`none` for an empty square); `getWdl` / `getDtz`
return `none` outside tablebase coverage. -/
structure Game (P : Type) where
  legalMoves : P → List String
  push : P → String → P
  isStalemate : P → Bool
  isCheckmate : P → Bool
  fen : P → String
  pieceAt : P → Nat → Option Char
  getWdl : P → Option Int
  getDtz : P → Option Int
  startPos : P

/-- Source global `max_score = 1000000`. -/
def max_score : Int := 1000000

/-- Source global `min_ordering = 1000`. -/
def min_ordering : Nat := 1000

/-- Source global `max_depth = 1`. -/
def max_depth : Nat := 1

/-- Engine state: the current position, the push/pop stack (each entry keeps
the move made together with the position it was made from, mirroring
python-chess's move stack), and the transposition table `fen_to_raw_score`. -/
structure BState (P : Type) where
  cur : P
  hist : List (String × P)
  cache : List (String × Int)
deriving DecidableEq

/-- `fen_to_raw_score.get(fen)`. -/
def cacheGet (c : List (String × Int)) (k : String) : Option Int :=
  match c with
  | [] => none
  | (k', v) :: rest => if k' = k then some v else cacheGet rest k

/-- `fen_to_raw_score[fen] = v` (only ever executed on a lookup miss, so
prepending has exactly the dictionary semantics). -/
def cacheSet (c : List (String × Int)) (k : String) (v : Int) : List (String × Int) :=
  (k, v) :: c

/-- `board.push(move)`. -/
def ppush {P} (g : Game P) (m : String) (st : BState P) : BState P :=
  ⟨g.push st.cur m, (m, st.cur) :: st.hist, st.cache⟩

/-- `board.pop()` (the source only ever pops after a push, so the stack is
never empty there; on an empty stack we leave the state unchanged). -/
def ppop {P} (st : BState P) : BState P :=
  match st.hist with
  | [] => st
  | (_, p) :: h => ⟨p, h, st.cache⟩

/-- `board.is_stalemate() or board.is_checkmate()`. -/
def isLeaf {P} (g : Game P) (p : P) : Bool := g.isStalemate p || g.isCheckmate p

/-- Leaf evaluation of `alpha_beta` (source lines 61–72): transposition
lookup, tablebase probes, raw-score combination `1000 * wdl - dtz` (with
`dtz = 0` at a terminal node) and insertion into the table.  The last
component counts Tablebase Reader invocations (`get_wdl` / `get_dtz`). -/
def leafEval {P} (g : Game P) (p : P) (leafNode : Bool) (c : List (String × Int)) :
    Option Int × List (String × Int) × Nat :=
  match cacheGet c (g.fen p) with
  | some raw => (some raw, c, 0)
  | none =>
    match g.getWdl p with
    | none => (none, c, 1)
    | some wdl =>
      match (if leafNode then some 0 else g.getDtz p) with
      | none => (none, c, 2)
      | some dtz =>
        (some (1000 * wdl - dtz), cacheSet c (g.fen p) (1000 * wdl - dtz),
         if leafNode then 1 else 2)

/-- One swap of the move-ordering pass (lists are updated functionally). -/
def listSwap (l : List String) (i j : Nat) : List String :=
  (l.set i (l.getD j "")).set j (l.getD i "")

/-- The `for index, move in enumerate(moves)` reordering loop of
`alpha_beta` (source lines 91–96): moves named in `best` are swapped to the
front.  Effectively dead code, since `min_ordering = 1000 ≥ max_depth`. -/
def orderLoop (best : List String) (l : List String) (bestCount index : Nat) : List String :=
  if h : index < l.length then
    if bestCount < index ∧ l.getD index "" ∈ best then
      orderLoop best (listSwap l bestCount index) (bestCount + 1) (index + 1)
    else
      orderLoop best l bestCount (index + 1)
  else l
termination_by l.length - index
decreasing_by
  · simp only [listSwap, List.length_set]; omega
  · omega

/-- The `for move in moves` loop of `alpha_beta` (source lines 97–121).
`child` is the recursive call one ply down (`alpha_beta(board, depth - 1,
alpha, beta, not maximize, False)`), abstracted so that the loop is
structurally recursive.  An unknown child (`None` score) is skipped; a
cutoff (`alpha > beta` resp. `beta < alpha`, strict, checked before the
`move_scores` append) stops the loop. -/
def abLoop {P} (child : Int → Int → BState P → (Option Int × List String) × BState P)
    (g : Game P) (moves : List String) (score alpha beta : Int)
    (maximize getBest : Bool) (acc : List (String × Int)) (st : BState P) :
    Int × List (String × Int) × BState P :=
  match moves with
  | [] => (score, acc, st)
  | m :: rest =>
    match child alpha beta (ppush g m st) with
    | ((childScore?, _), st2) =>
      let st3 := ppop st2
      match childScore? with
      | none => abLoop child g rest score alpha beta maximize getBest acc st3
      | some childScore =>
        if maximize then
          let score' := max score childScore
          let alpha' := max score' alpha
          if beta < alpha' then (score', acc, st3)
          else
            abLoop child g rest score' alpha' beta maximize getBest
              (if getBest then acc ++ [(m, childScore)] else acc) st3
        else
          let score' := min score childScore
          let beta' := min score' beta
          if beta' < alpha then (score', acc, st3)
          else
            abLoop child g rest score' alpha beta' maximize getBest
              (if getBest then acc ++ [(m, childScore)] else acc) st3

/-- The tail of `alpha_beta`'s internal-node code: run the child loop on the
(possibly reordered) move list, then extract the best-move set (source lines
97–130).  Factored out of `abStep` so it applies uniformly to both branches
of the move-ordering `if`. -/
def abFinish {P} (g : Game P)
    (child : Int → Int → BState P → (Option Int × List String) × BState P)
    (score0 alpha beta : Int) (maximize getBest : Bool) :
    List String × BState P → (Option Int × List String) × BState P
  | (moves, st1) =>
    match abLoop child g moves score0 alpha beta maximize getBest [] st1 with
    | (finalScore, moveScores, st2) =>
      if getBest then
        ((some finalScore,
          (moveScores.filter (fun ms => decide (ms.2 = finalScore))).map
            (fun ms => ms.1)), st2)
      else ((some finalScore, []), st2)

/-- The body of `alpha_beta` (source lines 44–130) at a given `depth`,
with `self` standing for `alpha_beta` one ply shallower. -/
def abStep {P} (g : Game P) (maxDepth depth : Nat)
    (self : Int → Int → Bool → Bool → BState P → (Option Int × List String) × BState P)
    (alpha beta : Int) (maximize getBest : Bool) (st : BState P) :
    (Option Int × List String) × BState P :=
  -- the coverage gate at the root
  if depth = maxDepth ∧ (g.getWdl st.cur).isNone then ((none, []), st)
  else
    let leafNode := isLeaf g st.cur
    if depth = 0 ∨ leafNode = true then
      let searched : Int := ((maxDepth - depth : Nat) : Int)
      match leafEval g st.cur leafNode st.cache with
      | (none, c', _) => ((none, []), ⟨st.cur, st.hist, c'⟩)
      | (some raw, c', _) =>
        ((some ((if maximize then raw else -raw) - searched), []), ⟨st.cur, st.hist, c'⟩)
    else
      let moves0 := g.legalMoves st.cur
      let score0 : Int := if maximize then -max_score else max_score
      let ordered :=
        if depth > min_ordering then
          match self alpha beta maximize true st with
          | ((estimated, bestMoves), st1) =>
            (match estimated with
             | some _ => orderLoop bestMoves moves0 0 0
             | none => moves0, st1)
        else (moves0, st)
      abFinish g (fun a b s => self a b (!maximize) false s)
        score0 alpha beta maximize getBest ordered

/-- `alpha_beta`, by structural recursion on `depth`.  At depth `0` the body
never recurses (the leaf branch is always taken), so the `self` argument is
an arbitrary placeholder there. -/
def alpha_beta {P} (g : Game P) (maxDepth : Nat) :
    Nat → Int → Int → Bool → Bool → BState P → (Option Int × List String) × BState P
  | 0 => abStep g maxDepth 0 (fun _ _ _ _ s => ((none, []), s))
  | d + 1 => abStep g maxDepth (d + 1) (alpha_beta g maxDepth d)

/-! ### Specification-side definitions -/

/-- The raw score the source computes for a position on a transposition miss:
`1000 * wdl - dtz`, with `dtz = 0` when the position is terminal
(stalemate/checkmate); `none` outside tablebase coverage. -/
def rawScore {P} (g : Game P) (p : P) : Option Int :=
  match g.getWdl p with
  | none => none
  | some wdl =>
    match (if isLeaf g p then some 0 else g.getDtz p) with
    | none => none
    | some dtz => some (1000 * wdl - dtz)

/-- Leaf value as seen from the root: the raw score signed for the maximizing
side, minus the number of plies searched so far. -/
def leafVal {P} (g : Game P) (maxDepth depth : Nat) (maximize : Bool) (p : P) : Int :=
  (if maximize then ((rawScore g p).getD 0) else -((rawScore g p).getD 0)) -
    ((maxDepth - depth : Nat) : Int)

/-- Plain bounded-depth minimax (no pruning, no cache): the specification
that `alpha_beta` is checked against. -/
def mmx {P} (g : Game P) (maxDepth : Nat) : Nat → Bool → P → Int
  | 0, mx, p => leafVal g maxDepth 0 mx p
  | d + 1, mx, p =>
    if isLeaf g p then leafVal g maxDepth (d + 1) mx p
    else
      let cs := (g.legalMoves p).map (fun m => mmx g maxDepth d (!mx) (g.push p m))
      if mx then cs.foldl max (-max_score) else cs.foldl min max_score

/-- A leaf position is covered and its raw score is small enough that the
ply adjustment keeps every value strictly inside `±max_score`. -/
def leafOk {P} (g : Game P) (maxDepth : Nat) (p : P) : Bool :=
  match rawScore g p with
  | none => false
  | some r => r.natAbs + maxDepth < 1000000

/-- Full tablebase coverage of the game tree to the given depth, together
with the score bound at every reachable leaf and non-emptiness of the legal
move list at every reachable internal node. -/
def Covered {P} (g : Game P) (maxDepth : Nat) : Nat → P → Bool
  | 0, p => leafOk g maxDepth p
  | d + 1, p =>
    if isLeaf g p then leafOk g maxDepth p
    else
      !(g.legalMoves p).isEmpty &&
        (g.legalMoves p).all (fun m => Covered g maxDepth d (g.push p m))

/-- The fail-soft alpha-beta contract: a returned value inside the window is
exact, a value below `alpha` over-approximates the true value, a value above
`beta` under-approximates it. -/
def InvRel (alpha beta v w : Int) : Prop :=
  (alpha ≤ v ∧ v ≤ beta → v = w) ∧ (v < alpha → w ≤ v) ∧ (beta < v → v ≤ w)

/-- The canonical position text determines the raw score (true of real FEN,
which encodes the whole position). -/
def FenFaithful {P} (g : Game P) : Prop :=
  ∀ p q : P, g.fen p = g.fen q → rawScore g p = rawScore g q

/-- Transposition-table coherence: every stored entry is the raw score of
every position bearing that canonical text. -/
def Coh {P} (g : Game P) (c : List (String × Int)) : Prop :=
  ∀ (p : P) (v : Int), cacheGet c (g.fen p) = some v → rawScore g p = some v

/-! ### State discipline of the search -/

/-- What one `alpha_beta` call does to the engine state: the board (current
position and move stack) is restored, existing transposition entries are
never overwritten or dropped, and table coherence is preserved. -/
def StOk {P} (g : Game P) (s s' : BState P) : Prop :=
  s'.cur = s.cur ∧ s'.hist = s.hist ∧
  (∀ k v, cacheGet s.cache k = some v → cacheGet s'.cache k = some v) ∧
  (FenFaithful g → Coh g s.cache → Coh g s'.cache)

lemma stOk_refl {P} (g : Game P) (s : BState P) : StOk g s s :=
  ⟨rfl, rfl, fun _ _ h => h, fun _ h => h⟩

lemma stOk_trans {P} {g : Game P} {s t u : BState P}
    (h1 : StOk g s t) (h2 : StOk g t u) : StOk g s u := by
  obtain ⟨a1, b1, c1, d1⟩ := h1
  obtain ⟨a2, b2, c2, d2⟩ := h2
  exact ⟨a2.trans a1, b2.trans b1, fun k v h => c2 k v (c1 k v h),
    fun hff hc => d2 hff (d1 hff hc)⟩

lemma stOk_pushpop {P} {g : Game P} {m : String} {st st2 : BState P}
    (h : StOk g (ppush g m st) st2) : StOk g st (ppop st2) := by
  obtain ⟨a, b, c, d⟩ := h
  have hh : st2.hist = (m, st.cur) :: st.hist := b
  have hpop : ppop st2 = ⟨st.cur, st.hist, st2.cache⟩ := by
    unfold ppop; rw [hh]
  rw [hpop]
  exact ⟨rfl, rfl, fun k v hv => c k v hv, fun hff hc => d hff hc⟩

lemma cacheGet_cons (k' : String) (v' : Int) (c : List (String × Int)) (k : String) :
    cacheGet ((k', v') :: c) k = if k' = k then some v' else cacheGet c k := rfl

lemma leafEval_mono {P} (g : Game P) (p : P) (ln : Bool) (c : List (String × Int))
    (k : String) (v : Int) (h : cacheGet c k = some v) :
    cacheGet (leafEval g p ln c).2.1 k = some v := by
  unfold leafEval
  cases hm : cacheGet c (g.fen p) with
  | some raw => simpa using h
  | none =>
    cases hw : g.getWdl p with
    | none => simpa using h
    | some wdl =>
      cases hd : (if ln then some 0 else g.getDtz p) with
      | none => simpa using h
      | some dtz =>
        simp only [cacheSet, cacheGet_cons]
        by_cases he : g.fen p = k
        · rw [he] at hm; rw [hm] at h; exact absurd h (by simp)
        · simp [he, h]

lemma leafEval_coh {P} {g : Game P} {p : P} {c : List (String × Int)}
    (hff : FenFaithful g) (hcoh : Coh g c) :
    Coh g (leafEval g p (isLeaf g p) c).2.1 := by
  unfold leafEval
  cases hm : cacheGet c (g.fen p) with
  | some raw => simpa using hcoh
  | none =>
    cases hw : g.getWdl p with
    | none => simpa using hcoh
    | some wdl =>
      cases hd : (if isLeaf g p then some 0 else g.getDtz p) with
      | none => simpa using hcoh
      | some dtz =>
        simp only [cacheSet]
        intro q v hv
        rw [cacheGet_cons] at hv
        by_cases he : g.fen p = g.fen q
        · rw [if_pos he] at hv
          have hraw : rawScore g p = some (1000 * wdl - dtz) := by
            unfold rawScore; rw [hw, hd]
          rw [← hff p q he, hraw, hv]
        · rw [if_neg he] at hv
          exact hcoh q v hv

lemma leafEval_val {P} {g : Game P} {p : P} {c : List (String × Int)}
    (hcoh : Coh g c) : (leafEval g p (isLeaf g p) c).1 = rawScore g p := by
  unfold leafEval
  cases hm : cacheGet c (g.fen p) with
  | some raw => simpa using (hcoh p raw hm).symm
  | none =>
    unfold rawScore
    cases hw : g.getWdl p with
    | none => simp
    | some wdl =>
      cases hd : (if isLeaf g p then some 0 else g.getDtz p) with
      | none => simp
      | some dtz => simp

lemma abLoop_state {P} {g : Game P}
    (child : Int → Int → BState P → (Option Int × List String) × BState P)
    (hchild : ∀ a b s, StOk g s ((child a b s).2)) :
    ∀ (moves : List String) (score alpha beta : Int) (mx gb : Bool)
      (acc : List (String × Int)) (st : BState P),
      StOk g st (abLoop child g moves score alpha beta mx gb acc st).2.2 := by
  intro moves
  induction moves with
  | nil =>
    intro score alpha beta mx gb acc st
    exact stOk_refl g st
  | cons m rest ih =>
    intro score alpha beta mx gb acc st
    simp only [abLoop]
    rcases hc : child alpha beta (ppush g m st) with ⟨⟨cs?, bs⟩, st2⟩
    have h2 : StOk g (ppush g m st) st2 := by
      have := hchild alpha beta (ppush g m st); rw [hc] at this; exact this
    have h3 : StOk g st (ppop st2) := stOk_pushpop h2
    cases cs? with
    | none => exact stOk_trans h3 (ih ..)
    | some cs =>
      by_cases hmx : mx
      · simp only [hmx, if_true]
        by_cases hcut : beta < max (max score cs) alpha
        · simp only [if_pos hcut]; exact h3
        · simp only [if_neg hcut]; exact stOk_trans h3 (ih ..)
      · simp only [hmx, if_false]
        by_cases hcut : min (min score cs) beta < alpha
        · simp only [if_pos hcut]; exact h3
        · simp only [if_neg hcut]; exact stOk_trans h3 (ih ..)

lemma abStep_state {P} {g : Game P} {maxDepth depth : Nat}
    {self : Int → Int → Bool → Bool → BState P → (Option Int × List String) × BState P}
    (hself : ∀ a b mx gb s, StOk g s ((self a b mx gb s).2)) :
    ∀ (alpha beta : Int) (mx gb : Bool) (st : BState P),
      StOk g st (abStep g maxDepth depth self alpha beta mx gb st).2 := by
  intro alpha beta mx gb st
  unfold abStep
  by_cases hgate : depth = maxDepth ∧ (g.getWdl st.cur).isNone
  · simp only [if_pos hgate]; exact stOk_refl g st
  · simp only [if_neg hgate]
    by_cases hleaf : depth = 0 ∨ isLeaf g st.cur = true
    · simp only [if_pos hleaf]
      rcases hle : leafEval g st.cur (isLeaf g st.cur) st.cache with ⟨r?, c', n⟩
      have hc' : c' = (leafEval g st.cur (isLeaf g st.cur) st.cache).2.1 := by rw [hle]
      have hok : StOk g st ⟨st.cur, st.hist, c'⟩ := by
        refine ⟨rfl, rfl, ?_, ?_⟩
        · intro k v hv; rw [hc']; exact leafEval_mono g st.cur (isLeaf g st.cur) st.cache k v hv
        · intro hff hcoh; rw [hc']; exact leafEval_coh hff hcoh
      cases r? with
      | none => simpa [hle] using hok
      | some raw => simpa [hle] using hok
    · simp only [if_neg hleaf]
      have hfin : ∀ (pr : List String × BState P), StOk g st pr.2 →
          StOk g st (abFinish g (fun a b s => self a b (!mx) false s)
            (if mx = true then -max_score else max_score) alpha beta mx gb pr).2 := by
        rintro ⟨moves, st1⟩ h1
        have hloop := abLoop_state (g := g)
          (fun a b s => self a b (!mx) false s)
          (fun a b s => hself a b (!mx) false s)
          moves (if mx = true then -max_score else max_score) alpha beta mx gb [] st1
        unfold abFinish
        dsimp only
        rcases hl : abLoop (fun a b s => self a b (!mx) false s) g moves
            (if mx = true then -max_score else max_score) alpha beta mx gb [] st1 with
          ⟨fs, ms, st2⟩
        rw [hl] at hloop
        have h2 : StOk g st st2 := stOk_trans h1 hloop
        cases gb <;> simpa using h2
      by_cases hord : depth > min_ordering
      · simp only [if_pos hord]
        rcases hs : self alpha beta mx true st with ⟨⟨estimated, bestMoves⟩, st1⟩
        have h1 : StOk g st st1 := by
          have := hself alpha beta mx true st; rw [hs] at this; exact this
        exact hfin _ h1
      · simp only [if_neg hord]
        exact hfin _ (stOk_refl g st)

lemma alpha_beta_state {P} (g : Game P) (maxDepth : Nat) :
    ∀ (depth : Nat) (alpha beta : Int) (mx gb : Bool) (st : BState P),
      StOk g st (alpha_beta g maxDepth depth alpha beta mx gb st).2 := by
  intro depth
  induction depth with
  | zero =>
    intro alpha beta mx gb st
    exact abStep_state (fun _ _ _ _ s => stOk_refl g s) alpha beta mx gb st
  | succ d ih =>
    intro alpha beta mx gb st
    exact abStep_state (fun a b mx' gb' s => ih a b mx' gb' s) alpha beta mx gb st

/-- C9: every invocation of `alpha_beta` leaves the shared board unchanged —
on every execution path (cutoff breaks and unknown-propagation skips
included) each `board.push(move)` is matched by a `board.pop()` before the
call returns, so both the current position and the move stack after the call
equal those before it. -/
theorem alpha_beta_preserves_board {P} (g : Game P) (maxDepth depth : Nat)
    (alpha beta : Int) (maximize getBest : Bool) (st : BState P) :
    (alpha_beta g maxDepth depth alpha beta maximize getBest st).2.cur = st.cur ∧
    (alpha_beta g maxDepth depth alpha beta maximize getBest st).2.hist = st.hist :=
  ⟨(alpha_beta_state g maxDepth depth alpha beta maximize getBest st).1,
   (alpha_beta_state g maxDepth depth alpha beta maximize getBest st).2.1⟩

/-! ### Unfolding lemmas for `alpha_beta` -/

lemma alpha_beta_zero {P} (g : Game P) (maxDepth : Nat) :
    alpha_beta g maxDepth 0 = abStep g maxDepth 0 (fun _ _ _ _ s => ((none, []), s)) := rfl

lemma alpha_beta_succ {P} (g : Game P) (maxDepth d : Nat) :
    alpha_beta g maxDepth (d + 1) = abStep g maxDepth (d + 1) (alpha_beta g maxDepth d) := rfl

lemma abStep_leaf {P} {g : Game P} {maxDepth depth : Nat}
    {self : Int → Int → Bool → Bool → BState P → (Option Int × List String) × BState P}
    {alpha beta : Int} {mx gb : Bool} {st : BState P}
    (hgate : ¬(depth = maxDepth ∧ (g.getWdl st.cur).isNone = true))
    (hleaf : depth = 0 ∨ isLeaf g st.cur = true) :
    abStep g maxDepth depth self alpha beta mx gb st =
      match leafEval g st.cur (isLeaf g st.cur) st.cache with
      | (none, c', _) => ((none, []), ⟨st.cur, st.hist, c'⟩)
      | (some raw, c', _) =>
        ((some ((if mx then raw else -raw) - ((maxDepth - depth : Nat) : Int)), []),
         ⟨st.cur, st.hist, c'⟩) := by
  unfold abStep
  rw [if_neg hgate, if_pos hleaf]

lemma abStep_internal {P} {g : Game P} {maxDepth depth : Nat}
    {self : Int → Int → Bool → Bool → BState P → (Option Int × List String) × BState P}
    {alpha beta : Int} {mx gb : Bool} {st : BState P}
    (hgate : ¬(depth = maxDepth ∧ (g.getWdl st.cur).isNone = true))
    (hleaf : ¬(depth = 0 ∨ isLeaf g st.cur = true))
    (hord : ¬(depth > min_ordering)) :
    abStep g maxDepth depth self alpha beta mx gb st =
      abFinish g (fun a b s => self a b (!mx) false s)
        (if mx = true then -max_score else max_score) alpha beta mx gb
        (g.legalMoves st.cur, st) := by
  unfold abStep
  simp only [if_neg hgate, if_neg hleaf, if_neg hord]

/-! ### Fold helpers for `Int` max / min -/

lemma foldl_max_choice : ∀ (l : List Int) (i : Int), l.foldl max i = i ∨ l.foldl max i ∈ l := by
  intro l
  induction l with
  | nil => intro i; left; rfl
  | cons x l ih =>
    intro i
    rcases ih (max i x) with h | h
    · rcases max_choice i x with hm | hm
      · left; rw [List.foldl_cons, h, hm]
      · right; rw [List.foldl_cons, h, hm]; exact List.mem_cons_self x l
    · right; exact List.mem_cons_of_mem x h

lemma le_foldl_max_init : ∀ (l : List Int) (i : Int), i ≤ l.foldl max i := by
  intro l
  induction l with
  | nil => intro i; exact le_refl i
  | cons x l ih =>
    intro i
    calc i ≤ max i x := le_max_left i x
    _ ≤ l.foldl max (max i x) := ih (max i x)

lemma le_foldl_max_mem : ∀ (l : List Int) (i x : Int), x ∈ l → x ≤ l.foldl max i := by
  intro l
  induction l with
  | nil => intro i x h; exact absurd h (List.not_mem_nil x)
  | cons y l ih =>
    intro i x h
    rcases List.mem_cons.mp h with h | h
    · subst h
      calc x ≤ max i x := le_max_right i x
      _ ≤ l.foldl max (max i x) := le_foldl_max_init l (max i x)
    · exact ih (max i y) x h

lemma foldl_min_choice : ∀ (l : List Int) (i : Int), l.foldl min i = i ∨ l.foldl min i ∈ l := by
  intro l
  induction l with
  | nil => intro i; left; rfl
  | cons x l ih =>
    intro i
    rcases ih (min i x) with h | h
    · rcases min_choice i x with hm | hm
      · left; rw [List.foldl_cons, h, hm]
      · right; rw [List.foldl_cons, h, hm]; exact List.mem_cons_self x l
    · right; exact List.mem_cons_of_mem x h

lemma foldl_min_init_le : ∀ (l : List Int) (i : Int), l.foldl min i ≤ i := by
  intro l
  induction l with
  | nil => intro i; exact le_refl i
  | cons x l ih =>
    intro i
    calc l.foldl min (min i x) ≤ min i x := ih (min i x)
    _ ≤ i := min_le_left i x

lemma foldl_min_le_mem : ∀ (l : List Int) (i x : Int), x ∈ l → l.foldl min i ≤ x := by
  intro l
  induction l with
  | nil => intro i x h; exact absurd h (List.not_mem_nil x)
  | cons y l ih =>
    intro i x h
    rcases List.mem_cons.mp h with h | h
    · subst h
      calc l.foldl min (min i x) ≤ min i x := foldl_min_init_le l (min i x)
      _ ≤ x := min_le_right i x
    · exact ih (min i y) x h

lemma foldl_max_factor : ∀ (l : List Int) (i j : Int),
    l.foldl max (max i j) = max i (l.foldl max j) := by
  intro l
  induction l with
  | nil => intro i j; rfl
  | cons x l ih =>
    intro i j
    rw [List.foldl_cons, List.foldl_cons, max_assoc, ih]

/-! ### Bounds on the minimax value -/

lemma covered_leaf_raw {P} {g : Game P} {maxDepth : Nat} {p : P}
    (h : leafOk g maxDepth p = true) :
    ∃ r : Int, rawScore g p = some r ∧ r.natAbs + maxDepth < 1000000 := by
  unfold leafOk at h
  cases hr : rawScore g p with
  | none => rw [hr] at h; exact absurd h (by simp)
  | some r =>
    rw [hr] at h
    exact ⟨r, rfl, by simpa using h⟩

lemma leafVal_bound {P} {g : Game P} {maxDepth depth : Nat} {mx : Bool} {p : P}
    (hdep : depth ≤ maxDepth)
    (h : leafOk g maxDepth p = true) :
    -max_score < leafVal g maxDepth depth mx p ∧ leafVal g maxDepth depth mx p < max_score := by
  obtain ⟨r, hr, hb⟩ := covered_leaf_raw h
  unfold leafVal max_score
  rw [hr]
  simp only [Option.getD_some]
  have hc : ((maxDepth - depth : Nat) : Int) ≤ (maxDepth : Int) := by
    have := Nat.sub_le maxDepth depth
    exact_mod_cast this
  have hc0 : (0 : Int) ≤ ((maxDepth - depth : Nat) : Int) := Int.natCast_nonneg _
  cases mx <;> simp only [if_true, if_false, Bool.false_eq_true] <;> omega

lemma foldl_max_bound {l : List Int} {c M : Int} (hc : c ∈ l)
    (hall : ∀ x ∈ l, -M < x ∧ x < M) (hM : -M < M) :
    -M < l.foldl max (-M) ∧ l.foldl max (-M) < M := by
  constructor
  · have h1 := le_foldl_max_mem l (-M) c hc
    have h2 := (hall c hc).1
    omega
  · rcases foldl_max_choice l (-M) with h | h
    · rw [h]; omega
    · exact (hall _ h).2

lemma foldl_min_bound {l : List Int} {c M : Int} (hc : c ∈ l)
    (hall : ∀ x ∈ l, -M < x ∧ x < M) (hM : -M < M) :
    -M < l.foldl min M ∧ l.foldl min M < M := by
  constructor
  · rcases foldl_min_choice l M with h | h
    · rw [h]; omega
    · exact (hall _ h).1
  · have h1 := foldl_min_le_mem l M c hc
    have h2 := (hall c hc).2
    omega

lemma mmx_bound {P} {g : Game P} {maxDepth : Nat} :
    ∀ (d : Nat) (mx : Bool) (p : P), d ≤ maxDepth → Covered g maxDepth d p = true →
      -max_score < mmx g maxDepth d mx p ∧ mmx g maxDepth d mx p < max_score := by
  intro d
  induction d with
  | zero =>
    intro mx p hdep hcov
    exact leafVal_bound hdep (by simpa [Covered] using hcov)
  | succ d ih =>
    intro mx p hdep hcov
    by_cases hl : isLeaf g p = true
    · have hok : leafOk g maxDepth p = true := by
        unfold Covered at hcov; rw [if_pos hl] at hcov; exact hcov
      have := @leafVal_bound P g maxDepth (d + 1) mx p hdep hok
      simpa [mmx, hl] using this
    · have hcov' : ¬(g.legalMoves p).isEmpty = true ∧
          ∀ m ∈ g.legalMoves p, Covered g maxDepth d (g.push p m) = true := by
        unfold Covered at hcov
        rw [if_neg hl] at hcov
        simp only [Bool.and_eq_true, Bool.not_eq_true', List.all_eq_true] at hcov
        exact ⟨by simp [hcov.1], hcov.2⟩
      have hne : g.legalMoves p ≠ [] := by
        intro h; exact hcov'.1 (by simp [h])
      have hchild : ∀ x ∈ (g.legalMoves p).map (fun m => mmx g maxDepth d (!mx) (g.push p m)),
          -max_score < x ∧ x < max_score := by
        intro x hx
        obtain ⟨m, hm, rfl⟩ := List.mem_map.mp hx
        exact ih (!mx) (g.push p m) (Nat.le_of_succ_le hdep) (hcov'.2 m hm)
      have hmapne : (g.legalMoves p).map (fun m => mmx g maxDepth d (!mx) (g.push p m)) ≠ [] := by
        simpa using hne
      obtain ⟨c, hcmem⟩ := List.exists_mem_of_ne_nil _ hmapne
      have hM : -max_score < max_score := by decide
      unfold mmx
      rw [if_neg hl]
      cases mx
      · simp only [Bool.false_eq_true, if_false]
        exact foldl_min_bound hcmem hchild hM
      · simp only [if_true]
        exact foldl_max_bound hcmem hchild hM

/-! ### The alpha-beta value invariant

`alpha_beta` prunes with *strict* window comparisons (`alpha > beta` /
`beta < alpha`), which keeps every value inside the closed window exact.
The two loop lemmas below establish the fail-soft contract `InvRel` for the
child loop of a maximizing resp. minimizing node; `ab_inv` ties them
together by induction on the depth. -/

lemma abLoop_val_max {P} {g : Game P} {maxDepth dc : Nat} (hff : FenFaithful g)
    (child : Int → Int → BState P → (Option Int × List String) × BState P)
    {p : P} {w : String → Int} {alpha beta : Int}
    (halpha : -max_score ≤ alpha) (hbeta : beta ≤ max_score)
    (hchild : ∀ (a : Int) (m : String) (s : BState P), -max_score ≤ a → a ≤ beta →
      Coh g s.cache → s.cur = g.push p m → Covered g maxDepth dc (g.push p m) = true →
      ∃ v, (child a beta s).1.1 = some v ∧ StOk g s (child a beta s).2 ∧
        -max_score < v ∧ v < max_score ∧ InvRel a beta v (w m)) :
    ∀ (ms : List String) (s a Wp : Int) (acc : List (String × Int)) (st : BState P),
      st.cur = p → Coh g st.cache →
      (∀ m ∈ ms, Covered g maxDepth dc (g.push p m) = true) →
      a = max alpha s → -max_score ≤ s → s < max_score → a ≤ beta →
      Wp ≤ s → s ≤ max alpha Wp → (alpha ≤ s → s ≤ Wp) →
      (-max_score < s ∨ ms ≠ []) →
      ∃ G st', abLoop child g ms s a beta true false acc st = (G, acc, st') ∧
        StOk g st st' ∧ -max_score < G ∧ G < max_score ∧ s ≤ G ∧
        InvRel alpha beta G ((ms.map w).foldl max Wp) := by
  intro ms
  induction ms with
  | nil =>
    intro s a Wp acc st hcur hcoh hcov h1 h2 h3 h4 h5 h6 h7 h8
    refine ⟨s, st, rfl, stOk_refl g st, ?_, h3, le_refl s, ?_, ?_, ?_⟩
    · rcases h8 with h | h
      · exact h
      · exact absurd rfl h
    · intro ⟨ha, hb⟩
      have := h7 ha
      simp only [List.map_nil, List.foldl_nil]
      omega
    · intro ha
      simp only [List.map_nil, List.foldl_nil]
      exact h5
    · intro hb
      omega
  | cons m rest ih =>
    intro s a Wp acc st hcur hcoh hcov h1 h2 h3 h4 h5 h6 h7 h8
    have hcovm : Covered g maxDepth dc (g.push p m) = true := hcov m (List.mem_cons_self m rest)
    have hcur' : (ppush g m st).cur = g.push p m := by rw [ppush, hcur]
    obtain ⟨v, hv1, hvs, hv2, hv3, hinv⟩ :=
      hchild a m (ppush g m st) (by omega) h4 hcoh hcur' hcovm
    simp only [abLoop]
    rcases hc : child a beta (ppush g m st) with ⟨⟨cs?, bs⟩, st2⟩
    rw [hc] at hv1 hvs
    simp only at hv1
    subst hv1
    have hst3 : StOk g st (ppop st2) := stOk_pushpop hvs
    have hcur3 : (ppop st2).cur = p := by rw [hst3.1, hcur]
    have hcoh3 : Coh g (ppop st2).cache := by
      have := hst3.2.2.2 hff hcoh
      exact this
    simp only [if_true]
    by_cases hcut : beta < max (max s v) a
    · -- beta cutoff: the breaking child lies strictly above the window
      rw [if_pos hcut]
      have hsa : s ≤ a := by omega
      have hvgt : beta < v := by omega
      have hmax : max s v = v := by omega
      have hwv : v ≤ w m := hinv.2.2 hvgt
      refine ⟨max s v, ppop st2, rfl, hst3, by omega, by omega, le_max_left s v, ?_, ?_, ?_⟩
      · intro ⟨ha, hb⟩; omega
      · intro ha; omega
      · intro hb
        have hfold : w m ≤ ((m :: rest).map w).foldl max Wp := by
          simp only [List.map_cons, List.foldl_cons]
          calc w m ≤ max Wp (w m) := le_max_right Wp (w m)
          _ ≤ (rest.map w).foldl max (max Wp (w m)) := le_foldl_max_init _ _
        omega
    · rw [if_neg hcut]
      -- no cutoff: v ≤ beta, so the child either is exact or fails low
      have hvb : v ≤ beta := by omega
      have hvw : (a ≤ v ∧ v = w m) ∨ (v < a ∧ w m ≤ v) := by
        rcases le_or_lt a v with hA | hB
        · exact Or.inl ⟨hA, hinv.1 ⟨hA, hvb⟩⟩
        · exact Or.inr ⟨hB, hinv.2.1 hB⟩
      have h7d : s ≤ Wp ∨ s < alpha := by
        rcases le_or_lt alpha s with h | h
        · exact Or.inl (h7 h)
        · exact Or.inr h
      obtain ⟨G, st', hGeq, hGst, hG1, hG2, hG3, hGinv⟩ :=
        ih (max s v) (max (max s v) a) (max Wp (w m)) acc (ppop st2) hcur3 hcoh3
          (fun m' hm' => hcov m' (List.mem_cons_of_mem m hm'))
          (by omega) (by omega) (by omega) (by omega)
          (by omega) (by omega) (by omega) (by left; omega)
      refine ⟨G, st', ?_, stOk_trans hst3 hGst, hG1, hG2, by omega, ?_⟩
      · simp only [Bool.false_eq_true, if_false]
        exact hGeq
      · simpa only [List.map_cons, List.foldl_cons] using hGinv

lemma abLoop_val_min {P} {g : Game P} {maxDepth dc : Nat} (hff : FenFaithful g)
    (child : Int → Int → BState P → (Option Int × List String) × BState P)
    {p : P} {w : String → Int} {alpha beta : Int}
    (halpha : -max_score ≤ alpha) (hbeta : beta ≤ max_score)
    (hchild : ∀ (b : Int) (m : String) (s : BState P), alpha ≤ b → b ≤ max_score →
      Coh g s.cache → s.cur = g.push p m → Covered g maxDepth dc (g.push p m) = true →
      ∃ v, (child alpha b s).1.1 = some v ∧ StOk g s (child alpha b s).2 ∧
        -max_score < v ∧ v < max_score ∧ InvRel alpha b v (w m)) :
    ∀ (ms : List String) (s b Wp : Int) (acc : List (String × Int)) (st : BState P),
      st.cur = p → Coh g st.cache →
      (∀ m ∈ ms, Covered g maxDepth dc (g.push p m) = true) →
      b = min beta s → s ≤ max_score → -max_score < s → alpha ≤ b →
      s ≤ Wp → min beta Wp ≤ s → (s ≤ beta → Wp ≤ s) →
      (s < max_score ∨ ms ≠ []) →
      ∃ G st', abLoop child g ms s alpha b false false acc st = (G, acc, st') ∧
        StOk g st st' ∧ -max_score < G ∧ G < max_score ∧ G ≤ s ∧
        InvRel alpha beta G ((ms.map w).foldl min Wp) := by
  intro ms
  induction ms with
  | nil =>
    intro s b Wp acc st hcur hcoh hcov h1 h2 h3 h4 h5 h6 h7 h8
    refine ⟨s, st, rfl, stOk_refl g st, h3, ?_, le_refl s, ?_, ?_, ?_⟩
    · rcases h8 with h | h
      · exact h
      · exact absurd rfl h
    · intro ⟨ha, hb⟩
      have := h7 hb
      simp only [List.map_nil, List.foldl_nil]
      omega
    · intro ha
      omega
    · intro hb
      simp only [List.map_nil, List.foldl_nil]
      exact h5
  | cons m rest ih =>
    intro s b Wp acc st hcur hcoh hcov h1 h2 h3 h4 h5 h6 h7 h8
    have hcovm : Covered g maxDepth dc (g.push p m) = true := hcov m (List.mem_cons_self m rest)
    have hcur' : (ppush g m st).cur = g.push p m := by rw [ppush, hcur]
    obtain ⟨v, hv1, hvs, hv2, hv3, hinv⟩ :=
      hchild b m (ppush g m st) h4 (by omega) hcoh hcur' hcovm
    simp only [abLoop]
    rcases hc : child alpha b (ppush g m st) with ⟨⟨cs?, bs⟩, st2⟩
    rw [hc] at hv1 hvs
    simp only at hv1
    subst hv1
    have hst3 : StOk g st (ppop st2) := stOk_pushpop hvs
    have hcur3 : (ppop st2).cur = p := by rw [hst3.1, hcur]
    have hcoh3 : Coh g (ppop st2).cache := hst3.2.2.2 hff hcoh
    simp only [Bool.false_eq_true, if_false]
    by_cases hcut : min (min s v) b < alpha
    · -- alpha cutoff: the breaking child lies strictly below the window
      rw [if_pos hcut]
      have hbs : b ≤ s := by omega
      have hvlt : v < alpha := by omega
      have hmin : min s v = v := by omega
      have hwv : w m ≤ v := hinv.2.1 hvlt
      refine ⟨min s v, ppop st2, rfl, hst3, by omega, by omega, min_le_left s v, ?_, ?_, ?_⟩
      · intro ⟨ha, hb'⟩; omega
      · intro ha
        have hfold : ((m :: rest).map w).foldl min Wp ≤ w m := by
          simp only [List.map_cons, List.foldl_cons]
          calc (rest.map w).foldl min (min Wp (w m)) ≤ min Wp (w m) :=
            foldl_min_init_le _ _
          _ ≤ w m := min_le_right Wp (w m)
        omega
      · intro hb'; omega
    · rw [if_neg hcut]
      -- no cutoff: alpha ≤ v, so the child either is exact or fails high
      have hva : alpha ≤ v := by omega
      have hvw : (v ≤ b ∧ v = w m) ∨ (b < v ∧ v ≤ w m) := by
        rcases le_or_lt v b with hA | hB
        · exact Or.inl ⟨hA, hinv.1 ⟨hva, hA⟩⟩
        · exact Or.inr ⟨hB, hinv.2.2 hB⟩
      have h7d : Wp ≤ s ∨ beta < s := by
        rcases le_or_lt s beta with h | h
        · exact Or.inl (h7 h)
        · exact Or.inr h
      obtain ⟨G, st', hGeq, hGst, hG1, hG2, hG3, hGinv⟩ :=
        ih (min s v) (min (min s v) b) (min Wp (w m)) acc (ppop st2) hcur3 hcoh3
          (fun m' hm' => hcov m' (List.mem_cons_of_mem m hm'))
          (by omega) (by omega) (by omega) (by omega)
          (by omega) (by omega) (by omega) (by left; omega)
      refine ⟨G, st', ?_, stOk_trans hst3 hGst, hG1, hG2, by omega, ?_⟩
      · exact hGeq
      · simpa only [List.map_cons, List.foldl_cons] using hGinv

lemma invRel_exact {alpha beta v : Int} : InvRel alpha beta v v :=
  ⟨fun _ => rfl, fun _ => le_refl v, fun _ => le_refl v⟩

lemma covered_internal {P} {g : Game P} {maxDepth d : Nat} {p : P}
    (hl : ¬isLeaf g p = true) (hcov : Covered g maxDepth (d + 1) p = true) :
    g.legalMoves p ≠ [] ∧ ∀ m ∈ g.legalMoves p, Covered g maxDepth d (g.push p m) = true := by
  unfold Covered at hcov
  rw [if_neg hl] at hcov
  simp only [Bool.and_eq_true, Bool.not_eq_true', List.all_eq_true] at hcov
  exact ⟨fun h => by simp [h] at hcov, hcov.2⟩

lemma covered_leaf {P} {g : Game P} {maxDepth d : Nat} {p : P}
    (hleaf : d = 0 ∨ isLeaf g p = true) (hcov : Covered g maxDepth d p = true) :
    leafOk g maxDepth p = true := by
  rcases d with _ | d
  · simpa [Covered] using hcov
  · rcases hleaf with h | h
    · exact absurd h (Nat.succ_ne_zero d)
    · unfold Covered at hcov; rwa [if_pos h] at hcov

lemma abStep_leaf_val {P} {g : Game P} {maxDepth depth : Nat}
    {self : Int → Int → Bool → Bool → BState P → (Option Int × List String) × BState P}
    {alpha beta : Int} {mx gb : Bool} {st : BState P}
    (hgate : ¬(depth = maxDepth ∧ (g.getWdl st.cur).isNone = true))
    (hleaf : depth = 0 ∨ isLeaf g st.cur = true)
    (hcoh : Coh g st.cache) :
    (abStep g maxDepth depth self alpha beta mx gb st).1 =
      ((rawScore g st.cur).map
        (fun r => (if mx then r else -r) - ((maxDepth - depth : Nat) : Int)), []) := by
  rw [abStep_leaf hgate hleaf]
  rcases hle : leafEval g st.cur (isLeaf g st.cur) st.cache with ⟨r?, c', n⟩
  have hv := leafEval_val (p := st.cur) hcoh
  rw [hle] at hv
  simp only at hv
  rw [← hv]
  cases r? <;> simp

/-- The leaf behaviour of `alpha_beta` under a coherent table: the returned
score is the (sign- and ply-adjusted) raw score, `none` outside coverage. -/
lemma alpha_beta_leaf_val {P} {g : Game P} {maxDepth depth : Nat}
    {alpha beta : Int} {mx gb : Bool} {st : BState P}
    (hgate : ¬(depth = maxDepth ∧ (g.getWdl st.cur).isNone = true))
    (hleaf : depth = 0 ∨ isLeaf g st.cur = true)
    (hcoh : Coh g st.cache) :
    (alpha_beta g maxDepth depth alpha beta mx gb st).1 =
      ((rawScore g st.cur).map
        (fun r => (if mx then r else -r) - ((maxDepth - depth : Nat) : Int)), []) := by
  cases depth with
  | zero => rw [alpha_beta_zero]; exact abStep_leaf_val hgate hleaf hcoh
  | succ d => rw [alpha_beta_succ]; exact abStep_leaf_val hgate hleaf hcoh

lemma mmx_leaf {P} {g : Game P} {maxDepth d : Nat} {mx : Bool} {p : P}
    (hleaf : d = 0 ∨ isLeaf g p = true) :
    mmx g maxDepth d mx p = leafVal g maxDepth d mx p := by
  rcases d with _ | d
  · rfl
  · rcases hleaf with h | h
    · exact absurd h (Nat.succ_ne_zero d)
    · unfold mmx; rw [if_pos h]

lemma mmx_internal {P} {g : Game P} {maxDepth d : Nat} {mx : Bool} {p : P}
    (hl : ¬isLeaf g p = true) :
    mmx g maxDepth (d + 1) mx p =
      (if mx
       then ((g.legalMoves p).map
         (fun m => mmx g maxDepth d (!mx) (g.push p m))).foldl max (-max_score)
       else ((g.legalMoves p).map
         (fun m => mmx g maxDepth d (!mx) (g.push p m))).foldl min max_score) := by
  conv_lhs => unfold mmx
  rw [if_neg hl]

/-- The fail-soft value invariant of `alpha_beta` at every node strictly
below the root gate: inside a fully covered subtree the search always
returns a known score, strictly bounded by `±max_score`, that is exact
whenever it falls inside the `[alpha, beta]` window. -/
lemma ab_inv {P} {g : Game P} {maxDepth : Nat} (hff : FenFaithful g)
    (hord : maxDepth ≤ min_ordering) :
    ∀ (d : Nat), d < maxDepth → ∀ (mx : Bool) (alpha beta : Int) (st : BState P),
      -max_score ≤ alpha → alpha ≤ beta → beta ≤ max_score →
      Coh g st.cache → Covered g maxDepth d st.cur = true →
      ∃ v, (alpha_beta g maxDepth d alpha beta mx false st).1.1 = some v ∧
        -max_score < v ∧ v < max_score ∧
        InvRel alpha beta v (mmx g maxDepth d mx st.cur) := by
  intro d
  induction d with
  | zero =>
    intro hd mx alpha beta st halpha hab hbeta hcoh hcov
    have hgate : ¬((0 : Nat) = maxDepth ∧ (g.getWdl st.cur).isNone = true) := by
      rintro ⟨h, _⟩; omega
    have hleaf : (0 : Nat) = 0 ∨ isLeaf g st.cur = true := Or.inl rfl
    have hval := @alpha_beta_leaf_val P g maxDepth 0 alpha beta mx false st hgate hleaf hcoh
    obtain ⟨r, hr, hb⟩ := covered_leaf_raw (covered_leaf hleaf hcov)
    have hlv : leafVal g maxDepth 0 mx st.cur =
        (if mx then r else -r) - ((maxDepth - 0 : Nat) : Int) := by
      unfold leafVal; rw [hr]; simp
    refine ⟨(if mx then r else -r) - ((maxDepth - 0 : Nat) : Int), ?_, ?_, ?_⟩
    · have : (alpha_beta g maxDepth 0 alpha beta mx false st).1.1 =
          (rawScore g st.cur).map
            (fun r => (if mx then r else -r) - ((maxDepth - 0 : Nat) : Int)) := by
        rw [hval]
      rw [this, hr]; rfl
    · have := @leafVal_bound P g maxDepth 0 mx st.cur (Nat.zero_le maxDepth)
        (covered_leaf hleaf hcov)
      rw [hlv] at this
      exact this.1
    · have hbd := @leafVal_bound P g maxDepth 0 mx st.cur (Nat.zero_le maxDepth)
        (covered_leaf hleaf hcov)
      rw [hlv] at hbd
      refine ⟨hbd.2, ?_⟩
      rw [mmx_leaf hleaf, hlv]
      exact invRel_exact
  | succ d ih =>
    intro hd mx alpha beta st halpha hab hbeta hcoh hcov
    have hgate : ¬((d + 1 : Nat) = maxDepth ∧ (g.getWdl st.cur).isNone = true) := by
      rintro ⟨h, _⟩; omega
    by_cases hlf : isLeaf g st.cur = true
    · -- a terminal node above depth 0: still a leaf
      have hleaf : (d + 1 : Nat) = 0 ∨ isLeaf g st.cur = true := Or.inr hlf
      have hval := @alpha_beta_leaf_val P g maxDepth (d + 1) alpha beta mx false st hgate hleaf hcoh
      obtain ⟨r, hr, hb⟩ := covered_leaf_raw (covered_leaf hleaf hcov)
      have hlv : leafVal g maxDepth (d + 1) mx st.cur =
          (if mx then r else -r) - ((maxDepth - (d + 1) : Nat) : Int) := by
        unfold leafVal; rw [hr]; simp
      refine ⟨(if mx then r else -r) - ((maxDepth - (d + 1) : Nat) : Int), ?_, ?_, ?_⟩
      · have : (alpha_beta g maxDepth (d + 1) alpha beta mx false st).1.1 =
            (rawScore g st.cur).map
              (fun r => (if mx then r else -r) - ((maxDepth - (d + 1) : Nat) : Int)) := by
          rw [hval]
        rw [this, hr]; rfl
      · have := @leafVal_bound P g maxDepth (d + 1) mx st.cur (Nat.le_of_lt hd)
          (covered_leaf hleaf hcov)
        rw [hlv] at this
        exact this.1
      · have hbd := @leafVal_bound P g maxDepth (d + 1) mx st.cur (Nat.le_of_lt hd)
          (covered_leaf hleaf hcov)
        rw [hlv] at hbd
        refine ⟨hbd.2, ?_⟩
        rw [mmx_leaf hleaf, hlv]
        exact invRel_exact
    · -- internal node
      have hleaf' : ¬((d + 1 : Nat) = 0 ∨ isLeaf g st.cur = true) := by
        rintro (h | h)
        · exact Nat.succ_ne_zero d h
        · exact hlf h
      have hordd : ¬(d + 1 > min_ordering) := by
        unfold min_ordering; unfold min_ordering at hord; omega
      obtain ⟨hne, hcovc⟩ := covered_internal hlf hcov
      have hdc : d < maxDepth := Nat.lt_of_succ_lt hd
      rw [alpha_beta_succ, abStep_internal hgate hleaf' hordd]
      cases mx
      · -- minimizing node
        simp only [Bool.false_eq_true, if_false]
        have hchild : ∀ (b : Int) (m : String) (s : BState P), alpha ≤ b → b ≤ max_score →
            Coh g s.cache → s.cur = g.push st.cur m →
            Covered g maxDepth d (g.push st.cur m) = true →
            ∃ v, ((fun a b s => alpha_beta g maxDepth d a b (!false) false s)
                alpha b s).1.1 = some v ∧
              StOk g s ((fun a b s => alpha_beta g maxDepth d a b (!false) false s)
                alpha b s).2 ∧
              -max_score < v ∧ v < max_score ∧
              InvRel alpha b v (mmx g maxDepth d true (g.push st.cur m)) := by
          intro b m s hb1 hb2 hc hcur hcv
          have := ih hdc true alpha b s halpha hb1 hb2 hc (by rwa [hcur])
          obtain ⟨v, hv1, hv2, hv3, hv4⟩ := this
          rw [hcur] at hv4
          exact ⟨v, hv1, alpha_beta_state g maxDepth d alpha b true false s, hv2, hv3, hv4⟩
        obtain ⟨G, st', hGeq, hGst, hG1, hG2, hG3, hGinv⟩ :=
          abLoop_val_min hff
            (fun a b s => alpha_beta g maxDepth d a b (!false) false s)
            (p := st.cur) (w := fun m => mmx g maxDepth d true (g.push st.cur m))
            halpha hbeta hchild
            (g.legalMoves st.cur) max_score (min beta max_score) max_score [] st rfl hcoh hcovc
            (by omega) (le_refl _) (by decide) (by omega)
            (le_refl _) (by omega) (fun _ => le_refl _) (Or.inr hne)
        have hbmin : min beta max_score = beta := by omega
        rw [hbmin] at hGeq
        unfold abFinish
        dsimp only
        rw [hGeq]
        simp only [Bool.false_eq_true, if_false]
        refine ⟨G, rfl, hG1, hG2, ?_⟩
        rw [mmx_internal hlf]
        simpa only [Bool.false_eq_true, if_false, Bool.not_false] using hGinv
      · -- maximizing node
        simp only [if_true]
        have hchild : ∀ (a : Int) (m : String) (s : BState P), -max_score ≤ a → a ≤ beta →
            Coh g s.cache → s.cur = g.push st.cur m →
            Covered g maxDepth d (g.push st.cur m) = true →
            ∃ v, ((fun a b s => alpha_beta g maxDepth d a b (!true) false s)
                a beta s).1.1 = some v ∧
              StOk g s ((fun a b s => alpha_beta g maxDepth d a b (!true) false s)
                a beta s).2 ∧
              -max_score < v ∧ v < max_score ∧
              InvRel a beta v (mmx g maxDepth d false (g.push st.cur m)) := by
          intro a m s ha1 ha2 hc hcur hcv
          have := ih hdc false a beta s ha1 ha2 hbeta hc (by rwa [hcur])
          obtain ⟨v, hv1, hv2, hv3, hv4⟩ := this
          rw [hcur] at hv4
          exact ⟨v, hv1, alpha_beta_state g maxDepth d a beta false false s, hv2, hv3, hv4⟩
        obtain ⟨G, st', hGeq, hGst, hG1, hG2, hG3, hGinv⟩ :=
          abLoop_val_max hff
            (fun a b s => alpha_beta g maxDepth d a b (!true) false s)
            (p := st.cur) (w := fun m => mmx g maxDepth d false (g.push st.cur m))
            halpha hbeta hchild
            (g.legalMoves st.cur) (-max_score) (max alpha (-max_score)) (-max_score) [] st
            rfl hcoh hcovc
            rfl (le_refl _) (by decide) (by omega)
            (le_refl _) (by omega) (fun _ => le_refl _) (Or.inr hne)
        have hamax : max alpha (-max_score) = alpha := by omega
        rw [hamax] at hGeq
        unfold abFinish
        dsimp only
        rw [hGeq]
        simp only [Bool.false_eq_true, if_false]
        refine ⟨G, rfl, hG1, hG2, ?_⟩
        rw [mmx_internal hlf]
        simpa only [if_true, Bool.not_true] using hGinv

/-! ### The root call: exact best-move-set collection -/

/-- The root loop of `alpha_beta` with `get_best` requested, full window and
`maximize = true`: no cutoff ever fires, every child is scored, and the
recorded child score equals the overall best value `Ws` exactly for the
children whose true minimax value is `Ws`. -/
lemma abLoop_root_max {P} {g : Game P} {maxDepth dc : Nat} (hff : FenFaithful g)
    (child : Int → Int → BState P → (Option Int × List String) × BState P)
    {p : P} {w : String → Int} {Ws : Int}
    (hWs : Ws < max_score)
    (hchild : ∀ (a : Int) (m : String) (s : BState P), -max_score ≤ a → a ≤ max_score →
      Coh g s.cache → s.cur = g.push p m → Covered g maxDepth dc (g.push p m) = true →
      ∃ v, (child a max_score s).1.1 = some v ∧ StOk g s (child a max_score s).2 ∧
        -max_score < v ∧ v < max_score ∧ InvRel a max_score v (w m)) :
    ∀ (ms : List String) (s a : Int) (acc : List (String × Int)) (st : BState P),
      st.cur = p → Coh g st.cache →
      (∀ m ∈ ms, Covered g maxDepth dc (g.push p m) = true) →
      -max_score ≤ a → a ≤ Ws → -max_score ≤ s → s ≤ Ws →
      max s ((ms.map w).foldl max (-max_score)) = Ws →
      ∃ acc2 st2, abLoop child g ms s a max_score true true acc st = (Ws, acc2, st2) ∧
        StOk g st st2 ∧
        (acc2.filter (fun pr => decide (pr.2 = Ws))).map (fun pr => pr.1) =
          (acc.filter (fun pr => decide (pr.2 = Ws))).map (fun pr => pr.1) ++
            ms.filter (fun m => decide (w m = Ws)) := by
  intro ms
  induction ms with
  | nil =>
    intro s a acc st hcur hcoh hcov ha1 ha2 hs1 hs2 hR3
    simp only [List.map_nil, List.foldl_nil] at hR3
    have hs : s = Ws := by omega
    refine ⟨acc, st, ?_, stOk_refl g st, ?_⟩
    · rw [← hs]; rfl
    · simp
  | cons m rest ih =>
    intro s a acc st hcur hcoh hcov ha1 ha2 hs1 hs2 hR3
    have hcovm : Covered g maxDepth dc (g.push p m) = true := hcov m (List.mem_cons_self m rest)
    have hcur' : (ppush g m st).cur = g.push p m := by rw [ppush, hcur]
    obtain ⟨v, hv1, hvs, hv2, hv3, hinv⟩ :=
      hchild a m (ppush g m st) ha1 (by omega) hcoh hcur' hcovm
    simp only [abLoop]
    rcases hc : child a max_score (ppush g m st) with ⟨⟨cs?, bs⟩, st2⟩
    rw [hc] at hv1 hvs
    simp only at hv1
    subst hv1
    have hst3 : StOk g st (ppop st2) := stOk_pushpop hvs
    have hcur3 : (ppop st2).cur = p := by rw [hst3.1, hcur]
    have hcoh3 : Coh g (ppop st2).cache := hst3.2.2.2 hff hcoh
    have hfold : ((m :: rest).map w).foldl max (-max_score) =
        max (w m) ((rest.map w).foldl max (-max_score)) := by
      simp only [List.map_cons, List.foldl_cons]
      rw [max_comm (-max_score) (w m), foldl_max_factor]
    rw [hfold] at hR3
    have hwmWs : w m ≤ Ws := by omega
    have hvw : v = w m ∨ (w m ≤ v ∧ v < a) := by
      rcases le_or_lt a v with hA | hB
      · exact Or.inl (hinv.1 ⟨hA, by omega⟩)
      · exact Or.inr ⟨hinv.2.1 hB, hB⟩
    have hvge : w m ≤ v := by rcases hvw with h | h <;> omega
    have hvWs : v ≤ Ws := by rcases hvw with h | h <;> omega
    simp only [if_true]
    have hnocut : ¬(max_score < max (max s v) a) := by omega
    rw [if_neg hnocut]
    obtain ⟨acc2, st4, heq, hst4, hfil⟩ :=
      ih (max s v) (max (max s v) a) (acc ++ [(m, v)]) (ppop st2) hcur3 hcoh3
        (fun m' hm' => hcov m' (List.mem_cons_of_mem m hm'))
        (by omega) (by omega) (by omega) (by omega) (by omega)
    refine ⟨acc2, st4, heq, stOk_trans hst3 hst4, ?_⟩
    rw [hfil]
    by_cases hmWs : w m = Ws
    · have hv : v = Ws := by rcases hvw with h | h <;> omega
      have e1 : (acc ++ [(m, v)]).filter (fun pr => decide (pr.2 = Ws)) =
          acc.filter (fun pr => decide (pr.2 = Ws)) ++ [(m, v)] := by
        rw [List.filter_append]
        simp [hv]
      have e2 : (m :: rest).filter (fun m' => decide (w m' = Ws)) =
          m :: rest.filter (fun m' => decide (w m' = Ws)) := by
        simp [List.filter_cons, hmWs]
      rw [e1, e2, List.map_append]
      simp
    · have hv : v ≠ Ws := by rcases hvw with h | h <;> omega
      have e1 : (acc ++ [(m, v)]).filter (fun pr => decide (pr.2 = Ws)) =
          acc.filter (fun pr => decide (pr.2 = Ws)) := by
        rw [List.filter_append]
        simp [hv]
      have e2 : (m :: rest).filter (fun m' => decide (w m' = Ws)) =
          rest.filter (fun m' => decide (w m' = Ws)) := by
        simp [List.filter_cons, hmWs]
      rw [e1, e2]

/-- C1: for a root position fully inside tablebase coverage, `alpha_beta`
called at the root (depth bound ≥ 1, full window, `maximize = True`,
`get_best = True`) returns the exact minimax value together with the
best-move list equal to exactly the legal root moves whose child minimax
value ties the best achievable value — so it never contains a move that is
strictly worse than the best achievable one. -/
theorem alpha_beta_root_best_set {P} (g : Game P) (maxDepth : Nat) (st : BState P)
    (hff : FenFaithful g) (hcoh : Coh g st.cache)
    (hdep : 1 ≤ maxDepth) (hord : maxDepth ≤ min_ordering)
    (hlf : isLeaf g st.cur = false)
    (hwdl : (g.getWdl st.cur).isSome = true)
    (hcov : Covered g maxDepth maxDepth st.cur = true) :
    (alpha_beta g maxDepth maxDepth (-max_score) max_score true true st).1 =
      (some (mmx g maxDepth maxDepth true st.cur),
       (g.legalMoves st.cur).filter
         (fun m => decide (mmx g maxDepth (maxDepth - 1) false (g.push st.cur m) =
           mmx g maxDepth maxDepth true st.cur))) := by
  obtain ⟨dd, rfl⟩ : ∃ dd, maxDepth = dd + 1 := ⟨maxDepth - 1, by omega⟩
  simp only [Nat.add_sub_cancel]
  have hlf' : ¬isLeaf g st.cur = true := by rw [hlf]; exact Bool.false_ne_true
  have hgate : ¬((dd + 1 : Nat) = dd + 1 ∧ (g.getWdl st.cur).isNone = true) := by
    rintro ⟨_, h2⟩
    cases ho : g.getWdl st.cur with
    | none => rw [ho] at hwdl; exact absurd hwdl (by simp)
    | some x => rw [ho] at h2; exact absurd h2 (by simp)
  have hleaf' : ¬((dd + 1 : Nat) = 0 ∨ isLeaf g st.cur = true) := by
    rintro (h | h)
    · exact Nat.succ_ne_zero dd h
    · exact hlf' h
  have hordd : ¬(dd + 1 > min_ordering) := by
    unfold min_ordering at hord ⊢; omega
  obtain ⟨hne, hcovc⟩ := covered_internal hlf' hcov
  have hWb := mmx_bound (dd + 1) true st.cur (le_refl _) hcov
  have hchild : ∀ (a : Int) (m : String) (s : BState P), -max_score ≤ a → a ≤ max_score →
      Coh g s.cache → s.cur = g.push st.cur m →
      Covered g (dd + 1) dd (g.push st.cur m) = true →
      ∃ v, ((fun a b s => alpha_beta g (dd + 1) dd a b (!true) false s)
          a max_score s).1.1 = some v ∧
        StOk g s ((fun a b s => alpha_beta g (dd + 1) dd a b (!true) false s)
          a max_score s).2 ∧
        -max_score < v ∧ v < max_score ∧
        InvRel a max_score v (mmx g (dd + 1) dd false (g.push st.cur m)) := by
    intro a m s ha1 ha2 hc hcur hcv
    obtain ⟨v, hv1, hv2, hv3, hv4⟩ :=
      ab_inv hff hord dd (by omega) false a max_score s ha1 ha2 (le_refl _) hc
        (by rwa [hcur])
    rw [hcur] at hv4
    exact ⟨v, hv1, alpha_beta_state g (dd + 1) dd a max_score false false s, hv2, hv3, hv4⟩
  have hWfold : ((g.legalMoves st.cur).map
      (fun m => mmx g (dd + 1) dd false (g.push st.cur m))).foldl max (-max_score) =
      mmx g (dd + 1) (dd + 1) true st.cur := by
    rw [mmx_internal hlf']
    simp only [if_true, Bool.not_true]
  obtain ⟨acc2, st4, heq, hst4, hfil⟩ :=
    abLoop_root_max hff (fun a b s => alpha_beta g (dd + 1) dd a b (!true) false s)
      (p := st.cur) (w := fun m => mmx g (dd + 1) dd false (g.push st.cur m))
      hWb.2 hchild (g.legalMoves st.cur) (-max_score) (-max_score) [] st rfl hcoh hcovc
      (le_refl _) (by have := hWb.1; omega) (le_refl _) (by have := hWb.1; omega)
      (by rw [hWfold]; have := hWb.1; omega)
  simp only [List.filter_nil, List.map_nil, List.nil_append] at hfil
  rw [alpha_beta_succ, abStep_internal hgate hleaf' hordd]
  unfold abFinish
  dsimp only
  simp only [if_true]
  rw [heq]
  simp only [if_true]
  rw [hfil]

/-! ### All children unknown: the sentinel, not "unknown" -/

lemma leafEval_none {P} {g : Game P} {p : P} {c : List (String × Int)}
    (hmiss : cacheGet c (g.fen p) = none) (hraw : rawScore g p = none) :
    leafEval g p (isLeaf g p) c = (none, c, if (g.getWdl p).isNone then 1 else 2) := by
  unfold leafEval
  rw [hmiss]
  unfold rawScore at hraw
  cases hw : g.getWdl p with
  | none => simp
  | some wdl =>
    rw [hw] at hraw
    cases hd : (if isLeaf g p then some 0 else g.getDtz p) with
    | none => simp [hd, hw]
    | some dtz => rw [hd] at hraw; exact absurd hraw (by simp)

lemma coh_miss_of_raw_none {P} {g : Game P} {p : P} {c : List (String × Int)}
    (hcoh : Coh g c) (hraw : rawScore g p = none) :
    cacheGet c (g.fen p) = none := by
  cases hm : cacheGet c (g.fen p) with
  | none => rfl
  | some v =>
    have := hcoh p v hm
    rw [hraw] at this
    exact absurd this (by simp)

/-- C2 (amended): at an internal node below the root gate whose children are
all leaves outside tablebase coverage, `alpha_beta` does *not* return
unknown: the skip-on-`None` loop leaves `score` at its extreme initial
sentinel (`-max_score` when maximizing, `max_score` when minimizing), which
is returned as an ordinary known score (with an empty best-move set), and the
caller folds this sentinel into its own min/max instead of skipping the
node. -/
theorem alpha_beta_all_unknown_sentinel {P} (g : Game P) (maxDepth : Nat)
    (alpha beta : Int) (mx : Bool) (st : BState P)
    (hdep : 1 < maxDepth)
    (hlf : isLeaf g st.cur = false)
    (hcoh : Coh g st.cache)
    (hch : ∀ m ∈ g.legalMoves st.cur, rawScore g (g.push st.cur m) = none) :
    alpha_beta g maxDepth 1 alpha beta mx false st =
      ((some (if mx = true then -max_score else max_score), []), st) := by
  have hlf' : ¬isLeaf g st.cur = true := by rw [hlf]; exact Bool.false_ne_true
  have hgate1 : ¬((1 : Nat) = maxDepth ∧ (g.getWdl st.cur).isNone = true) := by
    rintro ⟨h, _⟩; omega
  have hleaf1 : ¬((1 : Nat) = 0 ∨ isLeaf g st.cur = true) := by
    rintro (h | h)
    · exact absurd h (by omega)
    · exact hlf' h
  have hord1 : ¬((1 : Nat) > min_ordering) := by unfold min_ordering; omega
  have hchild0 : ∀ m ∈ g.legalMoves st.cur, ∀ (a b : Int),
      alpha_beta g maxDepth 0 a b (!mx) false (ppush g m st) =
        ((none, []), ppush g m st) := by
    intro m hm a b
    have hgate0 : ¬((0 : Nat) = maxDepth ∧ (g.getWdl (ppush g m st).cur).isNone = true) := by
      rintro ⟨h, _⟩; omega
    rw [alpha_beta_zero, abStep_leaf hgate0 (Or.inl rfl)]
    have hmiss : cacheGet (ppush g m st).cache (g.fen (ppush g m st).cur) = none := by
      have hc : (ppush g m st).cur = g.push st.cur m := rfl
      rw [hc]
      exact coh_miss_of_raw_none hcoh (hch m hm)
    have hraw : rawScore g (ppush g m st).cur = none := hch m hm
    rw [leafEval_none hmiss hraw]
  have hloop : ∀ (ms : List String), (∀ m ∈ ms, m ∈ g.legalMoves st.cur) →
      ∀ (s a b : Int) (acc : List (String × Int)),
      abLoop (fun a b s => alpha_beta g maxDepth 0 a b (!mx) false s) g ms
        s a b mx false acc st = (s, acc, st) := by
    intro ms
    induction ms with
    | nil => intro _ s a b acc; rfl
    | cons m rest ih =>
      intro hsub s a b acc
      simp only [abLoop]
      rw [hchild0 m (hsub m (List.mem_cons_self m rest)) a b]
      exact ih (fun m' hm' => hsub m' (List.mem_cons_of_mem m hm')) s a b acc
  have h1 : (1 : Nat) = 0 + 1 := rfl
  rw [h1, alpha_beta_succ, abStep_internal hgate1 hleaf1 hord1]
  unfold abFinish
  dsimp only
  rw [hloop (g.legalMoves st.cur) (fun m hm => hm)
    (if mx = true then -max_score else max_score) alpha beta []]
  cases mx <;> rfl

/-! ### Leaf scoring -/

lemma leafEval_miss {P} {g : Game P} {p : P} {c : List (String × Int)} (w dz : Int)
    (hmiss : cacheGet c (g.fen p) = none) (hw : g.getWdl p = some w)
    (hdz : isLeaf g p = false → g.getDtz p = some dz) :
    leafEval g p (isLeaf g p) c =
      (some (1000 * w - (if isLeaf g p then 0 else dz)),
       cacheSet c (g.fen p) (1000 * w - (if isLeaf g p then 0 else dz)),
       if isLeaf g p then 1 else 2) := by
  unfold leafEval
  rw [hmiss, hw]
  cases hl : isLeaf g p with
  | true => simp [hl]
  | false => simp [hl, hdz hl]

/-- C3: at a leaf (depth 0 or terminal) with known WDL and (for non-terminal
leaves) known DTZ, on a transposition miss the search computes
`raw = 1000 * wdl - dtz` with `dtz = 0` at terminal leaves, caches it, and
returns `raw` (negated when the leaf's side to move is not the maximizing
side) minus the plies searched so far (`max_depth - depth`); all arithmetic
is exact `Int` arithmetic. -/
theorem alpha_beta_leaf_score {P} (g : Game P) (maxDepth depth : Nat)
    (alpha beta : Int) (mx gb : Bool) (st : BState P) (w dz : Int)
    (hleaf : depth = 0 ∨ isLeaf g st.cur = true)
    (hw : g.getWdl st.cur = some w)
    (hdz : isLeaf g st.cur = false → g.getDtz st.cur = some dz)
    (hmiss : cacheGet st.cache (g.fen st.cur) = none) :
    alpha_beta g maxDepth depth alpha beta mx gb st =
      ((some ((if mx then 1000 * w - (if isLeaf g st.cur then 0 else dz)
               else -(1000 * w - (if isLeaf g st.cur then 0 else dz))) -
              ((maxDepth - depth : Nat) : Int)), []),
       ⟨st.cur, st.hist,
        cacheSet st.cache (g.fen st.cur)
          (1000 * w - (if isLeaf g st.cur then 0 else dz))⟩) := by
  have hgate : ¬(depth = maxDepth ∧ (g.getWdl st.cur).isNone = true) := by
    rintro ⟨_, h2⟩
    rw [hw] at h2
    exact absurd h2 (by simp)
  have key : ∀ self, abStep g maxDepth depth self alpha beta mx gb st =
      ((some ((if mx then 1000 * w - (if isLeaf g st.cur then 0 else dz)
               else -(1000 * w - (if isLeaf g st.cur then 0 else dz))) -
              ((maxDepth - depth : Nat) : Int)), []),
       ⟨st.cur, st.hist,
        cacheSet st.cache (g.fen st.cur)
          (1000 * w - (if isLeaf g st.cur then 0 else dz))⟩) := by
    intro self
    rw [abStep_leaf hgate hleaf, leafEval_miss w dz hmiss hw hdz]
  cases depth with
  | zero => rw [alpha_beta_zero]; exact key _
  | succ d => rw [alpha_beta_succ]; exact key _

/-! ### The `go` command handler: sorting, filters, selection -/

/-- Python string `<` on move codes: lexicographic on code points. -/
def strLtB : List Char → List Char → Bool
  | [], [] => false
  | [], _ :: _ => true
  | _ :: _, [] => false
  | a :: as, b :: bs =>
    if a.toNat < b.toNat then true
    else if b.toNat < a.toNat then false
    else strLtB as bs

/-- Python string `<=` (used to characterize the result of `moves.sort()`). -/
def pyLe (a b : String) : Bool := !(strLtB b.data a.data)

/-- The sorting relation as a `Prop`. -/
def pyLeR (a b : String) : Prop := pyLe a b = true

instance : DecidableRel pyLeR := fun a b => instDecidableEqBool (pyLe a b) true

/-- `moves.sort()`: the canonical deterministic order of the legal-move
codes.  (A stable comparison sort; since the order is total and two equal
keys are identical strings, any correct sort produces this same list.) -/
def pySort (l : List String) : List String := List.insertionSort pyLeR l

/-- Step 2 of the pipeline (source lines 148–149): when the Promotion option
is set, keep a move iff it is not a promotion (`len(m) == 4`) or promotes to
the configured piece letter (`m[4] == opt_promotion`). -/
def promFilter (pr : Option Char) (moves : List String) : List String :=
  match pr with
  | none => moves
  | some pc => moves.filter (fun m => m.length == 4 || m.data.getD 4 ' ' == pc)

/-- Engine options as consumed by the `go` handler (`opt_debug` is omitted:
it only toggles `info string` prints). -/
structure Opts where
  deterministic : Bool
  filter : Option String
  promotion : Option Char
  seed : Option String
  hasTb : Bool

/-- `board.peek().uci()`, `None` when the move stack is empty. -/
def lastMove {P} (st : BState P) : Option String := st.hist.head?.map (fun e => e.1)

/-- `chr(105 - ord(c))`: the rank mapping `rank' = 9 - rank`. -/
def flip9 (c : Char) : Char := Char.ofNat (105 - c.toNat)

/-- `chr(201 - ord(c))`: the file mapping `file' = 'i' - file` (`a↔h`). -/
def flipI (c : Char) : Char := Char.ofNat (201 - c.toNat)

/-- The `mirror` filter's transform:
`lm[0] + chr(105 - ord(lm[1])) + lm[2] + chr(105 - ord(lm[3])) + lm[4:]`.
(The source indexes the four coordinate characters directly; a UCI move
always has at least four characters.) -/
def mirrorUci (s : String) : String :=
  match s.data with
  | c0 :: c1 :: c2 :: c3 :: rest => ⟨c0 :: flip9 c1 :: c2 :: flip9 c3 :: rest⟩
  | _ => s

/-- The `rotate` filter's transform:
`chr(201 - ord(lm[0])) + chr(105 - ord(lm[1])) + chr(201 - ord(lm[2])) +
chr(105 - ord(lm[3])) + lm[4:]`. -/
def rotateUci (s : String) : String :=
  match s.data with
  | c0 :: c1 :: c2 :: c3 :: rest => ⟨flipI c0 :: flip9 c1 :: flipI c2 :: flip9 c3 :: rest⟩
  | _ => s

/-- `ord(move[0]) - 97 + 8 * (ord(move[1]) - 49)`: the square index of the
move's origin square. -/
def sqIndex (m : String) : Nat :=
  (m.data.getD 0 ' ').toNat - 97 + 8 * ((m.data.getD 1 ' ').toNat - 49)

/-- The `elif proposed_move and (proposed_move in moves)` step. -/
def applyPm (m1 : List String) (pm : Option String) : List String :=
  match pm with
  | some q => if q ∈ m1 then [q] else m1
  | none => m1

/-- The combination logic after a filter ran (source lines 206–214):
`filtered_move` forces a singleton, a non-empty `filtered_moves` replaces the
list, otherwise a valid `proposed_move` forces a singleton, otherwise the
list is left as is. -/
def applyF (moves : List String) (fm : Option String) (fms : Option (List String))
    (pm : Option String) : List String :=
  let m1 := match fm with
    | some f => [f]
    | none => moves
  match fms with
  | some l => if 0 < l.length then l else applyPm m1 pm
  | none => applyPm m1 pm

/-- The candidate list computed by the `go` handler before selection (source
lines 142–216): sorted legal moves, promotion constraint, then the optional
filter strategy.  The `syzygy` strategy runs `alpha_beta` and may grow the
transposition table, so the state is returned as well. -/
def candidateMoves {P} (g : Game P) (o : Opts) (st : BState P) : List String × BState P :=
  let moves := pySort ((g.legalMoves st.cur))
  let moves := promFilter o.promotion moves
  match o.filter with
  | none => (moves, st)
  | some f =>
    let lm := lastMove st
    if f = "first" then (applyF moves (some (moves.getD 0 "")) none none, st)
    else if f = "mirror" then (applyF moves none none (lm.map mirrorUci), st)
    else if f = "last" then (applyF moves (some (moves.getD (moves.length - 1) "")) none none, st)
    else if f = "rotate" then (applyF moves none none (lm.map rotateUci), st)
    else if f = "syzygy" then
      if o.hasTb then
        match alpha_beta g max_depth max_depth (-max_score) max_score true true st with
        | ((_, fms), st1) => (applyF moves none (some fms) none, st1)
      else (moves, st)
    else
      (applyF moves none
        (some (moves.filter
          (fun m => g.pieceAt st.cur (sqIndex m) == some (f.data.getD 0 ' '))))
        none, st)

/-- `struct.unpack("I", digest[0:4])`: the first four digest bytes as an
unsigned 32-bit little-endian integer. -/
def u32le (bs : List Nat) : Nat :=
  match bs with
  | b0 :: b1 :: b2 :: b3 :: _ => b0 + 256 * b1 + 65536 * b2 + 16777216 * b3
  | _ => 0

/-- The deterministic selection index: SHA-1 over the FEN (with the optional
seed appended after a single space), first four bytes as a `u32`, modulo the
candidate count.  `sha1` abstracts `hashlib.sha1(bytes(s, "UTF-8")).digest()`.
In random mode the index is the process-randomness oracle's draw. -/
def selectIndex (o : Opts) (sha1 : String → List Nat) (randIdx : Nat)
    (fen : String) (n : Nat) : Nat :=
  if o.deterministic then
    let boardStr := match o.seed with
      | some s => fen ++ " " ++ s
      | none => fen
    u32le (sha1 boardStr) % n
  else randIdx % n

/-- The full `go` handler (source lines 142–245): compute the candidates,
pick one, push it onto the board, and reply `bestmove`.  `none` corresponds
to the source raising on an empty candidate list (no reply is produced). -/
def goHandler {P} (g : Game P) (o : Opts) (sha1 : String → List Nat) (randIdx : Nat)
    (st : BState P) : Option (String × BState P) :=
  match candidateMoves g o st with
  | (moves, st1) =>
    match moves with
    | [] => none
    | [m] => some (m, ppush g m st1)
    | _ =>
      let mv := moves.getD (selectIndex o sha1 randIdx (g.fen st1.cur) moves.length) ""
      some (mv, ppush g mv st1)

/-- The commands of the protocol loop, as they act on the engine state
(`board` and `fen_to_raw_score`).  `position` is given the position the FEN
payload parses to plus the trailing move list; `setoption` mutates only the
options, `isready` / `print` / `stop` / `uci` only print. -/
inductive Cmd (P : Type) where
  | go (randIdx : Nat)
  | isready
  | position (target : P) (moves : List String)
  | print
  | setoption
  | stop
  | uci
  | ucinewgame

/-- The effect of one command on the engine state (source lines 142–331). -/
def stepCmd {P} (g : Game P) (o : Opts) (sha1 : String → List Nat) (c : Cmd P)
    (st : BState P) : BState P :=
  match c with
  | .go r =>
    match goHandler g o sha1 r st with
    | some (_, st') => st'
    | none => st
  | .position t ms => ms.foldl (fun s m => ppush g m s) ⟨t, [], st.cache⟩
  | .ucinewgame => ⟨g.startPos, [], []⟩
  | _ => st

/-! ### The sorting relation is a total preorder -/

lemma char_eq_of_toNat {a b : Char} (h : a.toNat = b.toNat) : a = b :=
  Char.ext (UInt32.ext h)

lemma strLtB_cons_iff (a b : Char) (as bs : List Char) :
    strLtB (a :: as) (b :: bs) = true ↔
      (a.toNat < b.toNat ∨ (a.toNat = b.toNat ∧ strLtB as bs = true)) := by
  simp only [strLtB]
  by_cases h1 : a.toNat < b.toNat
  · simp [h1]
  · by_cases h2 : b.toNat < a.toNat
    · simp [h1, h2]; omega
    · simp [h1, h2]; omega

lemma strLtB_asymm : ∀ x y, strLtB x y = true → strLtB y x = false := by
  intro x
  induction x with
  | nil =>
    intro y h
    cases y with
    | nil => exact absurd h (by simp [strLtB])
    | cons b bs => simp [strLtB]
  | cons a as ih =>
    intro y h
    cases y with
    | nil => exact absurd h (by simp [strLtB])
    | cons b bs =>
      rw [strLtB_cons_iff] at h
      rw [Bool.eq_false_iff, Ne, strLtB_cons_iff]
      rintro (h' | ⟨h'1, h'2⟩)
      · omega
      · rcases h with h | ⟨h1, h2⟩
        · omega
        · rw [ih bs h2] at h'2
          exact absurd h'2 (by simp)

lemma strLtB_trans : ∀ x y z, strLtB x y = true → strLtB y z = true → strLtB x z = true := by
  intro x
  induction x with
  | nil =>
    intro y z hxy hyz
    cases y with
    | nil => exact absurd hxy (by simp [strLtB])
    | cons b bs =>
      cases z with
      | nil => exact absurd hyz (by simp [strLtB])
      | cons c cs => simp [strLtB]
  | cons a as ih =>
    intro y z hxy hyz
    cases y with
    | nil => exact absurd hxy (by simp [strLtB])
    | cons b bs =>
      cases z with
      | nil => exact absurd hyz (by simp [strLtB])
      | cons c cs =>
        rw [strLtB_cons_iff] at hxy hyz ⊢
        rcases hxy with h1 | ⟨h1, h1t⟩
        · rcases hyz with h2 | ⟨h2, h2t⟩
          · left; omega
          · left; omega
        · rcases hyz with h2 | ⟨h2, h2t⟩
          · left; omega
          · exact Or.inr ⟨by omega, ih bs cs h1t h2t⟩

lemma strLtB_eq : ∀ x y, strLtB x y = false → strLtB y x = false → x = y := by
  intro x
  induction x with
  | nil =>
    intro y h1 h2
    cases y with
    | nil => rfl
    | cons b bs => exact absurd h1 (by simp [strLtB])
  | cons a as ih =>
    intro y h1 h2
    cases y with
    | nil => exact absurd h2 (by simp [strLtB])
    | cons b bs =>
      have H1 : ¬(a.toNat < b.toNat ∨ (a.toNat = b.toNat ∧ strLtB as bs = true)) := by
        rw [← strLtB_cons_iff]; simp [h1]
      have H2 : ¬(b.toNat < a.toNat ∨ (b.toNat = a.toNat ∧ strLtB bs as = true)) := by
        rw [← strLtB_cons_iff]; simp [h2]
      push_neg at H1 H2
      have hab : a.toNat = b.toNat := by omega
      have ht1 : strLtB as bs = false := by
        have := H1.2 hab
        simp [this]
      have ht2 : strLtB bs as = false := by
        have := H2.2 hab.symm
        simp [this]
      rw [char_eq_of_toNat hab, ih bs ht1 ht2]

instance : IsTotal String pyLeR := by
  constructor
  intro a b
  unfold pyLeR pyLe
  by_cases h : strLtB b.data a.data = true
  · right; rw [strLtB_asymm _ _ h]; rfl
  · left; rw [Bool.not_eq_true] at h; rw [h]; rfl

instance : IsTrans String pyLeR := by
  constructor
  intro a b c hab hbc
  unfold pyLeR pyLe at hab hbc ⊢
  simp only [Bool.not_eq_true'] at hab hbc ⊢
  by_cases h : strLtB c.data a.data = true
  · by_cases h2 : strLtB a.data b.data = true
    · rw [strLtB_trans _ _ _ h h2] at hbc
      exact absurd hbc (by simp)
    · rw [Bool.not_eq_true] at h2
      have heq : a.data = b.data := strLtB_eq _ _ h2 hab
      rw [heq] at h
      rw [h] at hbc
      exact absurd hbc (by simp)
  · rwa [Bool.not_eq_true] at h

lemma pySort_perm (l : List String) : (pySort l).Perm l :=
  List.perm_insertionSort pyLeR l

lemma pySort_sorted (l : List String) : List.Sorted pyLeR (pySort l) :=
  List.sorted_insertionSort pyLeR l

lemma pySort_ne_nil {l : List String} (h : l ≠ []) : pySort l ≠ [] := by
  intro hc
  exact h (List.Perm.eq_nil ((pySort_perm l).symm.trans (hc ▸ List.Perm.refl _)))

/-- The `go` handler's candidate computation touches the board not at all and
the transposition table only through `alpha_beta`. -/
lemma candidateMoves_state {P} (g : Game P) (o : Opts) (st : BState P) :
    StOk g st (candidateMoves g o st).2 := by
  unfold candidateMoves
  dsimp only
  cases hf : o.filter with
  | none => exact stOk_refl g st
  | some f =>
    by_cases h1 : f = "first"
    · simp only [if_pos h1]; exact stOk_refl g st
    · simp only [if_neg h1]
      by_cases h2 : f = "mirror"
      · simp only [if_pos h2]; exact stOk_refl g st
      · simp only [if_neg h2]
        by_cases h3 : f = "last"
        · simp only [if_pos h3]; exact stOk_refl g st
        · simp only [if_neg h3]
          by_cases h4 : f = "rotate"
          · simp only [if_pos h4]; exact stOk_refl g st
          · simp only [if_neg h4]
            by_cases h5 : f = "syzygy"
            · simp only [if_pos h5]
              by_cases h6 : o.hasTb = true
              · simp only [if_pos h6]
                rcases hab : alpha_beta g max_depth max_depth
                    (-max_score) max_score true true st with ⟨⟨sc, fms⟩, st1⟩
                have hs := alpha_beta_state g max_depth max_depth
                  (-max_score) max_score true true st
                rw [hab] at hs
                exact hs
              · simp only [if_neg h6]; exact stOk_refl g st
            · simp only [if_neg h5]; exact stOk_refl g st

/-- C4: with no filter strategy configured (and a promotion constraint that
removes nothing), the candidate set produced by the `go` handler is the full
legal-move set sorted lexicographically on the moves' UCI codes: it is the
`pySort` of the legal moves, a permutation of the legal-move set, and sorted
under the lexicographic order. -/
theorem go_candidates_no_filter {P} (g : Game P) (o : Opts) (st : BState P)
    (hf : o.filter = none)
    (hleg : g.legalMoves st.cur ≠ [])
    (hpf : promFilter o.promotion (pySort (g.legalMoves st.cur)) =
      pySort (g.legalMoves st.cur)) :
    (candidateMoves g o st).1 = pySort (g.legalMoves st.cur) ∧
    (candidateMoves g o st).1.Perm (g.legalMoves st.cur) ∧
    List.Sorted pyLeR (candidateMoves g o st).1 := by
  have h1 : (candidateMoves g o st).1 = pySort (g.legalMoves st.cur) := by
    unfold candidateMoves
    rw [hf]
    dsimp only
    rw [hpf]
  refine ⟨h1, ?_, ?_⟩
  · rw [h1]; exact pySort_perm _
  · rw [h1]; exact pySort_sorted _

/-- C7: with the piece-select filter configured with letter `X`, either some
legal move's origin square holds a piece with symbol `X` — then the
candidate set is exactly the moves whose origin square holds such a piece —
or no legal move does, and the candidate set falls back to the full
(promotion-filtered, sorted) legal-move list. -/
theorem go_candidates_piece_select {P} (g : Game P) (o : Opts) (st : BState P)
    (f : String) (X : Char)
    (hf : o.filter = some f)
    (hn1 : f ≠ "first") (hn2 : f ≠ "mirror") (hn3 : f ≠ "last")
    (hn4 : f ≠ "rotate") (hn5 : f ≠ "syzygy")
    (hX : f.data.getD 0 ' ' = X) :
    (((promFilter o.promotion (pySort (g.legalMoves st.cur))).filter
        (fun m => g.pieceAt st.cur (sqIndex m) == some X) ≠ [] →
      (candidateMoves g o st).1 =
        (promFilter o.promotion (pySort (g.legalMoves st.cur))).filter
          (fun m => g.pieceAt st.cur (sqIndex m) == some X) ∧
      ∀ m ∈ (candidateMoves g o st).1, g.pieceAt st.cur (sqIndex m) = some X) ∧
    ((promFilter o.promotion (pySort (g.legalMoves st.cur))).filter
        (fun m => g.pieceAt st.cur (sqIndex m) == some X) = [] →
      (candidateMoves g o st).1 =
        promFilter o.promotion (pySort (g.legalMoves st.cur)))) := by
  have hcm : (candidateMoves g o st).1 =
      (if 0 < ((promFilter o.promotion (pySort (g.legalMoves st.cur))).filter
          (fun m => g.pieceAt st.cur (sqIndex m) == some X)).length
       then (promFilter o.promotion (pySort (g.legalMoves st.cur))).filter
          (fun m => g.pieceAt st.cur (sqIndex m) == some X)
       else promFilter o.promotion (pySort (g.legalMoves st.cur))) := by
    unfold candidateMoves
    rw [hf]
    dsimp only
    rw [if_neg hn1, if_neg hn2, if_neg hn3, if_neg hn4, if_neg hn5, hX]
    unfold applyF applyPm
    dsimp only
  constructor
  · intro hne
    have hlen : 0 < ((promFilter o.promotion (pySort (g.legalMoves st.cur))).filter
        (fun m => g.pieceAt st.cur (sqIndex m) == some X)).length :=
      List.length_pos.mpr hne
    rw [hcm, if_pos hlen]
    refine ⟨rfl, ?_⟩
    intro m hm
    have := (List.mem_filter.mp hm).2
    exact eq_of_beq this
  · intro hnil
    rw [hcm, hnil]
    simp

/-! ### Mirror / rotate: involution and filter behaviour -/

/-- A well-formed UCI move: two board coordinates (files `a`–`h`, ranks
`1`–`8`) followed by an optional promotion suffix. -/
def ValidMove (m : String) : Prop :=
  ∃ c0 c1 c2 c3 rest, m.data = c0 :: c1 :: c2 :: c3 :: rest ∧
    c0 ∈ ['a', 'b', 'c', 'd', 'e', 'f', 'g', 'h'] ∧
    c2 ∈ ['a', 'b', 'c', 'd', 'e', 'f', 'g', 'h'] ∧
    c1 ∈ ['1', '2', '3', '4', '5', '6', '7', '8'] ∧
    c3 ∈ ['1', '2', '3', '4', '5', '6', '7', '8']

lemma flip9_flip9 : ∀ c ∈ ['1', '2', '3', '4', '5', '6', '7', '8'],
    flip9 (flip9 c) = c := by decide

lemma flipI_flipI : ∀ c ∈ ['a', 'b', 'c', 'd', 'e', 'f', 'g', 'h'],
    flipI (flipI c) = c := by decide

lemma mirrorUci_invol {m : String} (h : ValidMove m) : mirrorUci (mirrorUci m) = m := by
  obtain ⟨c0, c1, c2, c3, rest, hdata, hc0, hc2, hc1, hc3⟩ := h
  have hm : mirrorUci m = ⟨c0 :: flip9 c1 :: c2 :: flip9 c3 :: rest⟩ := by
    unfold mirrorUci; rw [hdata]
  have hm2 : mirrorUci ⟨c0 :: flip9 c1 :: c2 :: flip9 c3 :: rest⟩ =
      ⟨c0 :: flip9 (flip9 c1) :: c2 :: flip9 (flip9 c3) :: rest⟩ := rfl
  rw [hm, hm2, flip9_flip9 c1 hc1, flip9_flip9 c3 hc3]
  cases m
  exact congrArg String.mk hdata.symm

lemma rotateUci_invol {m : String} (h : ValidMove m) : rotateUci (rotateUci m) = m := by
  obtain ⟨c0, c1, c2, c3, rest, hdata, hc0, hc2, hc1, hc3⟩ := h
  have hm : rotateUci m = ⟨flipI c0 :: flip9 c1 :: flipI c2 :: flip9 c3 :: rest⟩ := by
    unfold rotateUci; rw [hdata]
  have hm2 : rotateUci ⟨flipI c0 :: flip9 c1 :: flipI c2 :: flip9 c3 :: rest⟩ =
      ⟨flipI (flipI c0) :: flip9 (flip9 c1) :: flipI (flipI c2) :: flip9 (flip9 c3) :: rest⟩ :=
    rfl
  rw [hm, hm2, flip9_flip9 c1 hc1, flip9_flip9 c3 hc3,
    flipI_flipI c0 hc0, flipI_flipI c2 hc2]
  cases m
  exact congrArg String.mk hdata.symm

lemma cm_mirror {P} (g : Game P) (o : Opts) (st : BState P)
    (hf : o.filter = some "mirror") (hp : o.promotion = none) :
    (candidateMoves g o st).1 =
      (match (lastMove st).map mirrorUci with
       | some q => if q ∈ pySort (g.legalMoves st.cur) then [q]
                   else pySort (g.legalMoves st.cur)
       | none => pySort (g.legalMoves st.cur)) := by
  unfold candidateMoves
  rw [hf, hp]
  dsimp only
  rw [if_neg (by decide : ¬("mirror" : String) = "first"), if_pos rfl]
  unfold applyF applyPm promFilter
  dsimp only

lemma cm_rotate {P} (g : Game P) (o : Opts) (st : BState P)
    (hf : o.filter = some "rotate") (hp : o.promotion = none) :
    (candidateMoves g o st).1 =
      (match (lastMove st).map rotateUci with
       | some q => if q ∈ pySort (g.legalMoves st.cur) then [q]
                   else pySort (g.legalMoves st.cur)
       | none => pySort (g.legalMoves st.cur)) := by
  unfold candidateMoves
  rw [hf, hp]
  dsimp only
  rw [if_neg (by decide : ¬("rotate" : String) = "first"),
    if_neg (by decide : ¬("rotate" : String) = "mirror"),
    if_neg (by decide : ¬("rotate" : String) = "last"), if_pos rfl]
  unfold applyF applyPm promFilter
  dsimp only

lemma match_proposed_ne_nil {l : List String} (q? : Option String) (hl : l ≠ []) :
    (match q? with
     | some q => if q ∈ l then [q] else l
     | none => l) ≠ [] := by
  cases q? with
  | none => exact hl
  | some q =>
    by_cases hq : q ∈ l
    · simp [hq]
    · simp [hq, hl]

/-- C6: the mirror and rotate move transforms are involutions on well-formed
move codes (rank mapping `rank' = 9 - rank`, file mapping `file' = 'i' -
file`, promotion suffix kept), and for every position with a non-empty
legal-move set (and no promotion constraint) the mirror/rotate filter output
is either the singleton transformed previous move (when that move is in the
legal list) or the unfiltered sorted list — never empty. -/
theorem mirror_rotate_transforms {P} (g : Game P) (o : Opts) (st : BState P) :
    (∀ m : String, ValidMove m → mirrorUci (mirrorUci m) = m) ∧
    (∀ m : String, ValidMove m → rotateUci (rotateUci m) = m) ∧
    (o.promotion = none → g.legalMoves st.cur ≠ [] →
      ((o.filter = some "mirror" →
        (candidateMoves g o st).1 =
          (match (lastMove st).map mirrorUci with
           | some q => if q ∈ pySort (g.legalMoves st.cur) then [q]
                       else pySort (g.legalMoves st.cur)
           | none => pySort (g.legalMoves st.cur)) ∧
        (candidateMoves g o st).1 ≠ []) ∧
       (o.filter = some "rotate" →
        (candidateMoves g o st).1 =
          (match (lastMove st).map rotateUci with
           | some q => if q ∈ pySort (g.legalMoves st.cur) then [q]
                       else pySort (g.legalMoves st.cur)
           | none => pySort (g.legalMoves st.cur)) ∧
        (candidateMoves g o st).1 ≠ []))) := by
  refine ⟨fun m h => mirrorUci_invol h, fun m h => rotateUci_invol h, ?_⟩
  intro hp hleg
  constructor
  · intro hf
    have hc := cm_mirror g o st hf hp
    exact ⟨hc, by rw [hc]; exact match_proposed_ne_nil _ (pySort_ne_nil hleg)⟩
  · intro hf
    have hc := cm_rotate g o st hf hp
    exact ⟨hc, by rw [hc]; exact match_proposed_ne_nil _ (pySort_ne_nil hleg)⟩

/-! ### Deterministic selection and the board mutation of `go` -/

/-- C5: in deterministic mode with at least two candidates the chosen move is
a pure function of the canonical position text and the optional seed: the
process-randomness oracle is irrelevant (two invocations with different
random draws agree), and the selected index is the first four bytes of the
SHA-1 digest of the position text — with a single space and the seed
appended exactly when the seed is set — interpreted as an unsigned 32-bit
integer, taken modulo the candidate count. -/
theorem deterministic_selection {P} (g : Game P) (o : Opts) (sha1 : String → List Nat)
    (st : BState P) (r1 r2 : Nat) (m1 m2 : String) (ms : List String)
    (hdet : o.deterministic = true)
    (hmoves : (candidateMoves g o st).1 = m1 :: m2 :: ms) :
    goHandler g o sha1 r1 st = goHandler g o sha1 r2 st ∧
    goHandler g o sha1 r1 st = some (
      (m1 :: m2 :: ms).getD
        (u32le (sha1 (match o.seed with
          | some s => g.fen st.cur ++ " " ++ s
          | none => g.fen st.cur)) % (m1 :: m2 :: ms).length) "",
      ppush g
        ((m1 :: m2 :: ms).getD
          (u32le (sha1 (match o.seed with
            | some s => g.fen st.cur ++ " " ++ s
            | none => g.fen st.cur)) % (m1 :: m2 :: ms).length) "")
        (candidateMoves g o st).2) := by
  have hcur : (candidateMoves g o st).2.cur = st.cur := (candidateMoves_state g o st).1
  have key : ∀ r : Nat, goHandler g o sha1 r st = some (
      (m1 :: m2 :: ms).getD
        (u32le (sha1 (match o.seed with
          | some s => g.fen st.cur ++ " " ++ s
          | none => g.fen st.cur)) % (m1 :: m2 :: ms).length) "",
      ppush g
        ((m1 :: m2 :: ms).getD
          (u32le (sha1 (match o.seed with
            | some s => g.fen st.cur ++ " " ++ s
            | none => g.fen st.cur)) % (m1 :: m2 :: ms).length) "")
        (candidateMoves g o st).2) := by
    intro r
    unfold goHandler
    rcases hcm : candidateMoves g o st with ⟨mlist, st1⟩
    rw [hcm] at hmoves
    simp only at hmoves
    subst hmoves
    rw [hcm] at hcur
    simp only at hcur
    unfold selectIndex
    rw [hdet]
    simp only [if_true, hcur]
  exact ⟨(key r1).trans (key r2).symm, key r1⟩

/-- C10: after every successful `go`, the engine's own board is mutated —
the chosen move is pushed (`board.push_uci(move)`) before the `bestmove`
reply, so every subsequent command operates on the position with that move
already applied. -/
theorem go_mutates_board {P} (g : Game P) (o : Opts) (sha1 : String → List Nat)
    (r : Nat) (st : BState P) (mv : String) (st2 : BState P)
    (h : goHandler g o sha1 r st = some (mv, st2)) :
    st2.cur = g.push st.cur mv ∧ st2.hist = (mv, st.cur) :: st.hist := by
  have hb := candidateMoves_state g o st
  unfold goHandler at h
  rcases hcm : candidateMoves g o st with ⟨mlist, st1⟩
  rw [hcm] at h hb
  simp only at hb
  cases mlist with
  | nil => exact absurd h (by simp)
  | cons a rest =>
    cases rest with
    | nil =>
      simp only [Option.some.injEq, Prod.mk.injEq] at h
      obtain ⟨hmv, hst⟩ := h
      subst hmv
      rw [← hst]
      exact ⟨by rw [ppush, hb.1], by rw [ppush, hb.1, hb.2.1]⟩
    | cons a2 rest2 =>
      simp only [Option.some.injEq, Prod.mk.injEq] at h
      obtain ⟨hmv, hst⟩ := h
      subst hmv
      rw [← hst]
      exact ⟨by rw [ppush, hb.1], by rw [ppush, hb.1, hb.2.1]⟩

/-! ### Transposition-cache discipline -/

lemma leafEval_hit {P} (g : Game P) (p : P) (ln : Bool)
    {c : List (String × Int)} {v : Int}
    (h : cacheGet c (g.fen p) = some v) : leafEval g p ln c = (some v, c, 0) := by
  unfold leafEval
  rw [h]

lemma leafEval_again {P} (g : Game P) (p : P) (ln : Bool)
    {c c' : List (String × Int)} {r : Int} {n : Nat}
    (h : leafEval g p ln c = (some r, c', n)) : leafEval g p ln c' = (some r, c', 0) := by
  have hlk : cacheGet c' (g.fen p) = some r := by
    unfold leafEval at h
    cases hm : cacheGet c (g.fen p) with
    | some v =>
      rw [hm] at h
      simp only [Prod.mk.injEq, Option.some.injEq] at h
      rw [← h.2.1, ← h.1]
      exact hm
    | none =>
      rw [hm] at h
      cases hw : g.getWdl p with
      | none => rw [hw] at h; exact absurd h (by simp)
      | some wdl =>
        rw [hw] at h
        cases hd : (if ln then some 0 else g.getDtz p) with
        | none => rw [hd] at h; exact absurd h (by simp)
        | some dtz =>
          rw [hd] at h
          simp only [Prod.mk.injEq, Option.some.injEq] at h
          rw [← h.2.1, cacheSet, cacheGet_cons, if_pos rfl, h.1]
  exact leafEval_hit g p ln hlk

lemma leafEval_fresh_probes {P} (g : Game P) (p : P) (ln : Bool) :
    1 ≤ (leafEval g p ln []).2.2 := by
  unfold leafEval
  have hm : cacheGet [] (g.fen p) = none := rfl
  rw [hm]
  cases g.getWdl p with
  | none => exact le_refl 1
  | some wdl =>
    cases hd : (if ln then some 0 else g.getDtz p) with
    | none => simp
    | some dtz =>
      simp only
      cases ln <;> simp

lemma foldl_ppush_cache {P} (g : Game P) :
    ∀ (ms : List String) (s : BState P),
      (ms.foldl (fun s m => ppush g m s) s).cache = s.cache := by
  intro ms
  induction ms with
  | nil => intro s; rfl
  | cons m rest ih =>
    intro s
    rw [List.foldl_cons]
    exact ih (ppush g m s)

/-- C8: the transposition cache maps canonical position text to the raw leaf
score, and obeys the write-once discipline: (i) leaf evaluation never
overwrites or evicts an existing entry, (ii) a lookup hit returns the stored
raw score with zero Tablebase Reader invocations and an unchanged cache,
(iii) re-evaluating a position just evaluated returns the identical raw
score with zero Reader invocations, (iv) a probe against the empty (freshly
cleared) cache invokes the Reader, (v) `ucinewgame` empties the cache, and
(vi) among the protocol commands only `go` (through leaf evaluation, which
only adds entries) and `ucinewgame` (which clears it) touch the cache at
all. -/
theorem transposition_cache_discipline {P} (g : Game P) (o : Opts)
    (sha1 : String → List Nat) :
    (∀ (c : List (String × Int)) (p : P) (ln : Bool) (k : String) (v : Int),
      cacheGet c k = some v → cacheGet (leafEval g p ln c).2.1 k = some v) ∧
    (∀ (c : List (String × Int)) (p : P) (ln : Bool) (v : Int),
      cacheGet c (g.fen p) = some v → leafEval g p ln c = (some v, c, 0)) ∧
    (∀ (c c' : List (String × Int)) (p : P) (ln : Bool) (r : Int) (n : Nat),
      leafEval g p ln c = (some r, c', n) → leafEval g p ln c' = (some r, c', 0)) ∧
    (∀ (p : P) (ln : Bool), 1 ≤ (leafEval g p ln []).2.2) ∧
    (∀ st : BState P, (stepCmd g o sha1 Cmd.ucinewgame st).cache = []) ∧
    (∀ (st : BState P) (r : Nat) (k : String) (v : Int),
      cacheGet st.cache k = some v →
      cacheGet (stepCmd g o sha1 (Cmd.go r) st).cache k = some v) ∧
    (∀ (st : BState P) (t : P) (ms : List String),
      (stepCmd g o sha1 (Cmd.position t ms) st).cache = st.cache ∧
      stepCmd g o sha1 Cmd.isready st = st ∧
      stepCmd g o sha1 Cmd.print st = st ∧
      stepCmd g o sha1 Cmd.setoption st = st ∧
      stepCmd g o sha1 Cmd.stop st = st ∧
      stepCmd g o sha1 Cmd.uci st = st) := by
  refine ⟨?_, ?_, ?_, ?_, ?_, ?_, ?_⟩
  · intro c p ln k v hv
    exact leafEval_mono g p ln c k v hv
  · intro c p ln v hv
    exact leafEval_hit g p ln hv
  · intro c c' p ln r n h
    exact leafEval_again g p ln h
  · intro p ln
    exact leafEval_fresh_probes g p ln
  · intro st
    rfl
  · intro st r k v hv
    show cacheGet (match goHandler g o sha1 r st with
      | some (_, st') => st'
      | none => st).cache k = some v
    cases hg : goHandler g o sha1 r st with
    | none => exact hv
    | some pr =>
      rcases pr with ⟨mv, st'⟩
      have hmono := (candidateMoves_state g o st).2.2.1 k v hv
      unfold goHandler at hg
      rcases hcm : candidateMoves g o st with ⟨mlist, st1⟩
      rw [hcm] at hg hmono
      simp only at hmono
      cases mlist with
      | nil => exact absurd hg (by simp)
      | cons a rest =>
        cases rest with
        | nil =>
          simp only [Option.some.injEq, Prod.mk.injEq] at hg
          rw [← hg.2]
          exact hmono
        | cons a2 rest2 =>
          simp only [Option.some.injEq, Prod.mk.injEq] at hg
          rw [← hg.2]
          exact hmono
  · intro st t ms
    exact ⟨foldl_ppush_cache g ms ⟨t, [], st.cache⟩, rfl, rfl, rfl, rfl, rfl⟩

/-! ### Concrete instances

Small fully concrete games used to evaluate the theorems above on explicit
inputs.  `gW`: a covered two-move root with distinct leaf classifications.
`gC2`: a line whose sole grandchild is outside tablebase coverage.
`gE`: a two-move position used for the `go`-handler pipeline. -/

def gW : Game (Fin 3) where
  legalMoves := fun p => if p = 0 then ["a1a2", "a1a3"] else []
  push := fun p m => if p = 0 then (if m = "a1a2" then 1 else 2) else p
  isStalemate := fun _ => false
  isCheckmate := fun _ => false
  fen := fun p => toString p.val
  pieceAt := fun _ _ => none
  getWdl := fun p => if p = 0 then some 2 else if p = 1 then some 2 else some 0
  getDtz := fun p => if p = 1 then some 4 else some 0
  startPos := 0

def stW : BState (Fin 3) := ⟨0, [], []⟩

def gC2 : Game (Fin 3) where
  legalMoves := fun p => if p = 0 then ["a"] else if p = 1 then ["b"] else []
  push := fun p m => if p = 0 then 1 else if p = 1 then 2 else p
  isStalemate := fun _ => false
  isCheckmate := fun _ => false
  fen := fun p => toString p.val
  pieceAt := fun _ _ => none
  getWdl := fun p => if p = 2 then none else some 0
  getDtz := fun _ => some 0
  startPos := 0

def gE : Game (Fin 3) where
  legalMoves := fun p => if p = 0 then ["e2e4", "a2a3"] else []
  push := fun p m => if p = 0 then (if m = "a2a3" then 1 else 2) else p
  isStalemate := fun _ => false
  isCheckmate := fun _ => false
  fen := fun p => toString p.val
  pieceAt := fun _ sq => if sq = 8 then some 'x' else none
  getWdl := fun _ => none
  getDtz := fun _ => none
  startPos := 0

def sha1W : String → List Nat := fun _ => [3, 0, 0, 0]

def oW4 : Opts := ⟨false, none, none, none, false⟩

def oW5 : Opts := ⟨true, none, none, some "s", false⟩

def oW6 : Opts := ⟨false, some "mirror", none, none, false⟩

def oW7 : Opts := ⟨false, some "x", none, none, false⟩

lemma coh_nil {P} (g : Game P) : Coh g [] := fun _ v h => Option.noConfusion h

theorem alpha_beta_root_best_set_witness :
    (alpha_beta gW 1 1 (-max_score) max_score true true stW).1 =
      (some (mmx gW 1 1 true stW.cur),
       (gW.legalMoves stW.cur).filter
         (fun m => decide (mmx gW 1 (1 - 1) false (gW.push stW.cur m) =
           mmx gW 1 1 true stW.cur))) :=
  alpha_beta_root_best_set gW 1 stW (by unfold FenFaithful; decide) (coh_nil gW)
    (by decide) (by decide) (by decide) (by decide) (by decide)

/-- The claim's scenario evaluated concretely: every child of the internal
node returns unknown, yet the node returns `some max_score` — a known
score, not unknown. -/
theorem all_unknown_counterexample :
    (∀ m ∈ gC2.legalMoves (1 : Fin 3),
      (alpha_beta gC2 2 0 (-max_score) max_score true false
        (ppush gC2 m ⟨1, [], []⟩)).1.1 = none) ∧
    (alpha_beta gC2 2 1 (-max_score) max_score false false
      (⟨1, [], []⟩ : BState (Fin 3))).1.1 = some max_score := by decide

theorem all_unknown_sentinel_witness :
    alpha_beta gC2 2 1 (-max_score) max_score false false
      (⟨1, [], []⟩ : BState (Fin 3)) =
      ((some (if false = true then -max_score else max_score), []),
       (⟨1, [], []⟩ : BState (Fin 3))) :=
  alpha_beta_all_unknown_sentinel gC2 2 (-max_score) max_score false ⟨1, [], []⟩
    (by decide) (by decide) (coh_nil gC2) (by decide)

theorem alpha_beta_leaf_score_witness :
    alpha_beta gW 1 0 (-max_score) max_score false false (⟨1, [], []⟩ : BState (Fin 3)) =
      ((some ((if false then 1000 * 2 - (if isLeaf gW (1 : Fin 3) then 0 else 4)
               else -(1000 * 2 - (if isLeaf gW (1 : Fin 3) then 0 else 4))) -
              ((1 - 0 : Nat) : Int)), []),
       ⟨(1 : Fin 3), [],
        cacheSet [] (gW.fen (1 : Fin 3))
          (1000 * 2 - (if isLeaf gW (1 : Fin 3) then 0 else 4))⟩) :=
  alpha_beta_leaf_score gW 1 0 (-max_score) max_score false false ⟨1, [], []⟩ 2 4
    (Or.inl rfl) (by decide) (fun _ => by decide) rfl

theorem go_candidates_no_filter_witness :
    (candidateMoves gE oW4 (⟨0, [], []⟩ : BState (Fin 3))).1 =
      pySort (gE.legalMoves (⟨0, [], []⟩ : BState (Fin 3)).cur) ∧
    (candidateMoves gE oW4 (⟨0, [], []⟩ : BState (Fin 3))).1.Perm
      (gE.legalMoves (⟨0, [], []⟩ : BState (Fin 3)).cur) ∧
    List.Sorted pyLeR (candidateMoves gE oW4 (⟨0, [], []⟩ : BState (Fin 3))).1 :=
  go_candidates_no_filter gE oW4 ⟨0, [], []⟩ rfl (by decide) rfl

theorem deterministic_selection_witness :
    goHandler gE oW5 sha1W 0 (⟨0, [], []⟩ : BState (Fin 3)) =
      goHandler gE oW5 sha1W 7 (⟨0, [], []⟩ : BState (Fin 3)) ∧
    goHandler gE oW5 sha1W 0 (⟨0, [], []⟩ : BState (Fin 3)) = some (
      (["a2a3", "e2e4"]).getD
        (u32le (sha1W (match oW5.seed with
          | some s => gE.fen (⟨0, [], []⟩ : BState (Fin 3)).cur ++ " " ++ s
          | none => gE.fen (⟨0, [], []⟩ : BState (Fin 3)).cur)) % (["a2a3", "e2e4"]).length) "",
      ppush gE
        ((["a2a3", "e2e4"]).getD
          (u32le (sha1W (match oW5.seed with
            | some s => gE.fen (⟨0, [], []⟩ : BState (Fin 3)).cur ++ " " ++ s
            | none => gE.fen (⟨0, [], []⟩ : BState (Fin 3)).cur)) % (["a2a3", "e2e4"]).length) "")
        (candidateMoves gE oW5 (⟨0, [], []⟩ : BState (Fin 3))).2) :=
  deterministic_selection gE oW5 sha1W ⟨0, [], []⟩ 0 7 "a2a3" "e2e4" []
    rfl (by decide)

theorem mirror_rotate_transforms_witness :
    mirrorUci (mirrorUci "e7e5") = "e7e5" ∧
    rotateUci (rotateUci "e7e5") = "e7e5" ∧
    (candidateMoves gE oW6 (⟨0, [("e7e5", 0)], []⟩ : BState (Fin 3))).1 =
      (match (lastMove (⟨0, [("e7e5", 0)], []⟩ : BState (Fin 3))).map mirrorUci with
       | some q =>
         if q ∈ pySort (gE.legalMoves (⟨0, [("e7e5", 0)], []⟩ : BState (Fin 3)).cur)
         then [q]
         else pySort (gE.legalMoves (⟨0, [("e7e5", 0)], []⟩ : BState (Fin 3)).cur)
       | none => pySort (gE.legalMoves (⟨0, [("e7e5", 0)], []⟩ : BState (Fin 3)).cur)) ∧
    (candidateMoves gE oW6 (⟨0, [("e7e5", 0)], []⟩ : BState (Fin 3))).1 ≠ [] := by
  have hvm : ValidMove "e7e5" :=
    ⟨'e', '7', 'e', '5', [], rfl, by decide, by decide, by decide, by decide⟩
  have h := mirror_rotate_transforms gE oW6 (⟨0, [("e7e5", 0)], []⟩ : BState (Fin 3))
  have h3 := (h.2.2 rfl (by decide)).1 rfl
  exact ⟨h.1 "e7e5" hvm, h.2.1 "e7e5" hvm, h3.1, h3.2⟩

theorem go_candidates_piece_select_witness :
    ((promFilter oW7.promotion (pySort (gE.legalMoves (⟨0, [], []⟩ : BState (Fin 3)).cur))).filter
        (fun m => gE.pieceAt (⟨0, [], []⟩ : BState (Fin 3)).cur (sqIndex m) == some 'x') ≠ [] →
      (candidateMoves gE oW7 (⟨0, [], []⟩ : BState (Fin 3))).1 =
        (promFilter oW7.promotion (pySort (gE.legalMoves (⟨0, [], []⟩ : BState (Fin 3)).cur))).filter
          (fun m => gE.pieceAt (⟨0, [], []⟩ : BState (Fin 3)).cur (sqIndex m) == some 'x') ∧
      ∀ m ∈ (candidateMoves gE oW7 (⟨0, [], []⟩ : BState (Fin 3))).1,
        gE.pieceAt (⟨0, [], []⟩ : BState (Fin 3)).cur (sqIndex m) = some 'x') ∧
    ((promFilter oW7.promotion (pySort (gE.legalMoves (⟨0, [], []⟩ : BState (Fin 3)).cur))).filter
        (fun m => gE.pieceAt (⟨0, [], []⟩ : BState (Fin 3)).cur (sqIndex m) == some 'x') = [] →
      (candidateMoves gE oW7 (⟨0, [], []⟩ : BState (Fin 3))).1 =
        promFilter oW7.promotion (pySort (gE.legalMoves (⟨0, [], []⟩ : BState (Fin 3)).cur))) :=
  go_candidates_piece_select gE oW7 ⟨0, [], []⟩ "x" 'x' rfl
    (by decide) (by decide) (by decide) (by decide) (by decide) (by decide)

theorem transposition_cache_discipline_witness :
    leafEval gW (1 : Fin 3) false [("1", 1996)] = (some 1996, [("1", 1996)], 0) ∧
    (stepCmd gW oW4 sha1W Cmd.ucinewgame (⟨0, [], [("1", 5)]⟩ : BState (Fin 3))).cache = [] ∧
    cacheGet (leafEval gW (2 : Fin 3) false [("1", 1996)]).2.1 "1" = some 1996 :=
  ⟨(transposition_cache_discipline gW oW4 sha1W).2.1 [("1", 1996)] 1 false 1996 (by decide),
   (transposition_cache_discipline gW oW4 sha1W).2.2.2.2.1 ⟨0, [], [("1", 5)]⟩,
   (transposition_cache_discipline gW oW4 sha1W).1 [("1", 1996)] 2 false "1" 1996 (by decide)⟩

theorem go_mutates_board_witness :
    (⟨1, [("a2a3", 0)], []⟩ : BState (Fin 3)).cur =
      gE.push (⟨0, [], []⟩ : BState (Fin 3)).cur "a2a3" ∧
    (⟨1, [("a2a3", 0)], []⟩ : BState (Fin 3)).hist =
      ("a2a3", (⟨0, [], []⟩ : BState (Fin 3)).cur) :: (⟨0, [], []⟩ : BState (Fin 3)).hist :=
  go_mutates_board gE oW4 sha1W 0 ⟨0, [], []⟩ "a2a3" ⟨1, [("a2a3", 0)], []⟩ (by decide)

end RandomUci
